import Mathlib

/-!
Verification of the FP-growth core of `fpGrowth.py` (market-basket-analysis).

The Python object graph (FPNode objects linked by `parent` / `children` /
`neighbor` references, owned by an `FPTree`) is modelled as an arena: nodes
live at natural-number ids, id 0 is the root, and the tree carries the
arena size, the id-indexed node map and the insertion-ordered route table
(Python's insertion-ordered `dict`).  Items are opaque hashable tokens,
modelled as `Nat`.
-/

set_option maxHeartbeats 1000000

/-- Model of `FPNode`: `item`/`count` are `none` exactly on the root,
`children` is the insertion-ordered mapping item to child id, `parent` and
`neighbor` are optional node ids. -/
structure FPNode where
  item : Option Nat
  count : Option Nat
  parent : Option Nat
  children : List (Nat × Nat)
  neighbor : Option Nat
deriving DecidableEq, Repr

/-- The node every fresh arena slot holds: `FPNode(tree, None, None)`. -/
def rootFPNode : FPNode := ⟨none, none, none, [], none⟩

/-- Model of `FPTree`: arena of nodes (id 0 is the root) plus the
insertion-ordered `_routes` table, each entry `(item, head, tail)`. -/
structure FPTree where
  size : Nat
  node : Nat → FPNode
  routes : List (Nat × Nat × Nat)

/-- `FPTree.__init__`: a single root node, no routes. -/
def FPTree.empty : FPTree := ⟨1, fun _ => rootFPNode, []⟩

/-- Replace the node stored at id `n`. -/
def FPTree.setNode (t : FPTree) (n : Nat) (v : FPNode) : FPTree :=
  { t with node := fun m => if m = n then v else t.node m }

/-- `FPNode.search`: look the item up in the children mapping. -/
def FPTree.searchChild (t : FPTree) (p : Nat) (it : Nat) : Option Nat :=
  ((t.node p).children.find? (fun q => q.1 == it)).map (fun q => q.2)

/-- `FPNode.add`: if no child for the child's item exists yet, append it to
the children mapping and set the child's parent; otherwise do nothing. -/
def FPTree.nodeAdd (t : FPTree) (pid cid : Nat) : FPTree :=
  match (t.node cid).item with
  | none => t
  | some ci =>
    if ((t.node pid).children.find? (fun q => q.1 == ci)).isSome then t
    else
      let t1 := t.setNode pid
        { t.node pid with children := (t.node pid).children ++ [(ci, cid)] }
      t1.setNode cid { t1.node cid with parent := some pid }

/-- Replace the route entry for `it` in place (Python dict update keeps the
key's position). -/
def FPTree.setRoute (t : FPTree) (it hd tl : Nat) : FPTree :=
  { t with routes := t.routes.map (fun q => if q.1 == it then (it, hd, tl) else q) }

/-- `FPTree._update_route`: extend the existing route at its tail, or start
a fresh single-node route. -/
def FPTree.updateRoute (t : FPTree) (nid : Nat) : FPTree :=
  match (t.node nid).item with
  | none => t
  | some it =>
    match t.routes.find? (fun q => q.1 == it) with
    | some q =>
      (t.setNode q.2.2 { t.node q.2.2 with neighbor := some nid }).setRoute it q.2.1 nid
    | none => { t with routes := t.routes ++ [(it, nid, nid)] }

/-- Allocate a fresh node at id `t.size`. -/
def FPTree.createNode (t : FPTree) (it : Option Nat) (cnt : Option Nat) : FPTree × Nat :=
  ({ t with size := t.size + 1,
            node := fun m => if m = t.size then ⟨it, cnt, none, [], none⟩ else t.node m },
   t.size)

/-- `FPNode(tree, item, count)` followed by `point.add(...)` and
`tree._update_route(...)`, as done by both `FPTree.add` and
`conditional_tree_from_paths`. -/
def FPTree.insertNewNode (t : FPTree) (point it cnt : Nat) : FPTree × Nat :=
  let r := t.createNode (some it) (some cnt)
  ((r.1.nodeAdd point r.2).updateRoute r.2, r.2)

def rootCountErrorMsg : String := "Root nodes have no associated count."

/-- `FPNode.increment`: `count += 1`, a `ValueError` when the count is
absent (the root). -/
def FPNode.increment (n : FPNode) : Except String FPNode :=
  match n.count with
  | none => Except.error rootCountErrorMsg
  | some c => Except.ok { n with count := some (c + 1) }

/-- Apply `increment` to the node at `nid`.  The error branch (reached only
for a count-less node, i.e. the root, where the source raises) leaves the
tree unchanged; it is unreachable from `FPTree.add`, which increments only
child nodes. -/
def FPTree.incAt (t : FPTree) (nid : Nat) : FPTree :=
  match (t.node nid).increment with
  | Except.ok v => t.setNode nid v
  | Except.error _ => t

/-- One step of the `FPTree.add` walk: reuse-and-increment, or create. -/
def FPTree.addStep (acc : FPTree × Nat) (it : Nat) : FPTree × Nat :=
  match acc.1.searchChild acc.2 it with
  | some np => (acc.1.incAt np, np)
  | none => acc.1.insertNewNode acc.2 it 1

/-- `FPTree.add`: walk from the root, one step per transaction item. -/
def FPTree.add (t : FPTree) (transaction : List Nat) : FPTree :=
  (transaction.foldl FPTree.addStep (t, 0)).1

/-- `FPNode.root`: true iff both item and count are absent. -/
def FPNode.isRoot (n : FPNode) : Bool := n.item.isNone && n.count.isNone

/-- Follow `neighbor` links, as the `FPTree.nodes` generator does; `fuel`
bounds the walk (the links of a well-formed tree are acyclic). -/
def FPTree.chain (t : FPTree) : Nat → Option Nat → List Nat
  | 0, _ => []
  | _ + 1, none => []
  | fuel + 1, some nid => nid :: t.chain fuel (t.node nid).neighbor

/-- `FPTree.nodes(item)`: all node ids on the item's route. -/
def FPTree.nodesList (t : FPTree) (it : Nat) : List Nat :=
  match t.routes.find? (fun q => q.1 == it) with
  | none => []
  | some q => t.chain t.size (some q.2.1)

/-- The upward walk of `collect_path`: climb `parent` links, stopping at
(and excluding) the root. -/
def FPTree.upPath (t : FPTree) : Nat → Option Nat → List Nat
  | 0, _ => []
  | _ + 1, none => []
  | fuel + 1, some nid =>
    if (t.node nid).isRoot then [] else nid :: t.upPath fuel (t.node nid).parent

/-- `collect_path(node)`: the root-to-node id path (root excluded). -/
def FPTree.collectPath (t : FPTree) (nid : Nat) : List Nat :=
  (t.upPath t.size (some nid)).reverse

/-- `FPTree.prefix_paths(item)`, with each path node replaced by the
`(item, count)` data the conditional-tree builder reads from it. -/
def FPTree.prefixPathsData (t : FPTree) (it : Nat) : List (List (Nat × Nat)) :=
  (t.nodesList it).map (fun nid =>
    (t.collectPath nid).map (fun m => ((t.node m).item.getD 0, (t.node m).count.getD 0)))

/-- One step of the conditional-tree import walk: reuse a child without
touching its count, or create one with count `node.count` for the
condition item and `0` otherwise. -/
def importStep (ci : Nat) (acc : FPTree × Nat) (pe : Nat × Nat) : FPTree × Nat :=
  match acc.1.searchChild acc.2 pe.1 with
  | some np => (acc.1, np)
  | none => acc.1.insertNewNode acc.2 pe.1 (if pe.1 == ci then pe.2 else 0)

/-- Import one prefix path into the conditional tree, walking from the root. -/
def importPath (ci : Nat) (t : FPTree) (path : List (Nat × Nat)) : FPTree :=
  (path.foldl (importStep ci) (t, 0)).1

/-- `node._count += count` (an absent count stays absent; the source would
raise there, and the bump pass only ever reaches counted nodes). -/
def FPNode.addCount (n : FPNode) (k : Nat) : FPNode :=
  { n with count := n.count.map (fun c => c + k) }

def FPTree.bumpAt (t : FPTree) (nid k : Nat) : FPTree :=
  t.setNode nid ((t.node nid).addCount k)

/-- `count = path[-1].count; for node in reversed(path[:-1]): node._count += count`. -/
def bumpLeafPath (t : FPTree) (path : List Nat) : FPTree :=
  match path.getLast? with
  | none => t
  | some leaf =>
    (path.dropLast.reverse).foldl (fun t2 nid => t2.bumpAt nid ((t.node leaf).count.getD 0)) t

/-- The bottom-up count-reconstruction pass: for every node on the
condition item's route, add its count into every strict ancestor. -/
def bumpCounts (t : FPTree) (ci : Nat) : FPTree :=
  (t.nodesList ci).foldl (fun t2 m => bumpLeafPath t2 (t2.collectPath m)) t

def emptyPathsErrorMsg : String := "assertion failed: condition_item is not None"

/-- `conditional_tree_from_paths`: the condition item is the first path's
final element's item (`assert condition_item is not None` fails on an empty
path sequence); import every path, then reconstruct ancestor counts. -/
def conditional_tree_from_paths (paths : List (List (Nat × Nat))) : Except String FPTree :=
  match paths.head?.bind (fun p => p.getLast?) with
  | none => Except.error emptyPathsErrorMsg
  | some pe =>
    Except.ok (bumpCounts (paths.foldl (importPath pe.1) FPTree.empty) pe.1)

/-- Total wrapper around `conditional_tree_from_paths`; the error case
(where the source raises) falls back to an empty tree and is unreachable
from the miner, which always passes at least one non-empty path. -/
def condTreeOr (paths : List (List (Nat × Nat))) : FPTree :=
  match conditional_tree_from_paths paths with
  | Except.ok t => t
  | Except.error _ => FPTree.empty

/-- `support = sum(n.count for n in nodes)`. -/
def supportOf (t : FPTree) (it : Nat) : Nat :=
  ((t.nodesList it).map (fun nid => (t.node nid).count.getD 0)).sum

/-- `find_with_suffix`, with explicit recursion fuel (the Python recursion
depth is bounded by the number of distinct items, which is below the arena
size the top-level call passes). -/
def find_with_suffix (ms : Int) : Nat → FPTree → List Nat → List (List Nat × Nat)
  | 0, _, _ => []
  | fuel + 1, tree, suffix =>
    tree.routes.foldr (fun q acc =>
      (if ms ≤ ((supportOf tree q.1 : Nat) : Int) ∧ q.1 ∉ suffix then
        (q.1 :: suffix, supportOf tree q.1) ::
          find_with_suffix ms fuel (condTreeOr (tree.prefixPathsData q.1)) (q.1 :: suffix)
      else []) ++ acc) []

/-- Lines 22-24 of `fpGrowth.py`: from the data frame (columns plus the
per-row numeric entries), each row becomes the list of columns whose entry
is positive, in column order. -/
def extractTransactions (cols : List Nat) (rows : List (List Nat)) : List (List Nat) :=
  rows.map (fun r => ((cols.zip r).filter (fun q => decide (0 < q.2))).map (fun q => q.1))

/-- `for n in range(1, len(z)): master.add(z[n])` - note the loop starts at
index 1, so the transaction at position 0 is never inserted. -/
def masterTree (z : List (List Nat)) : FPTree :=
  (List.range' 1 (z.length - 1)).foldl (fun t n => t.add (z.getD n [])) FPTree.empty

/-- `find_frequent_itemsets(df, minimum_support, include_support=True)`. -/
def find_frequent_itemsets (cols : List Nat) (rows : List (List Nat)) (ms : Int) :
    List (List Nat × Nat) :=
  let z := extractTransactions cols rows
  find_with_suffix ms (masterTree z).size (masterTree z) []

/-- Brute-force support, following the spec's words for P2: the number of
input transactions containing every item of the itemset. -/
def bruteSupport (transactions : List (List Nat)) (itemset : List Nat) : Nat :=
  (transactions.filter (fun tr => itemset.all (fun x => tr.contains x))).length

/-- Insert a whole list of transactions, in order, into an empty tree. -/
def buildTree (ts : List (List Nat)) : FPTree :=
  ts.foldl FPTree.add FPTree.empty

def itemIds (t : FPTree) (it : Nat) : List Nat :=
  (List.range t.size).filter (fun n => (t.node n).item == some it)

def routeKeys (t : FPTree) : List Nat := t.routes.map (fun q => q.1)

/-- The neighbor links thread `l` in order and terminate after its last
element - what the `nodes(item)` generator needs in order to enumerate
exactly `l`. -/
def linksTo (t : FPTree) (l : List Nat) : Prop :=
  List.Chain' (fun a b => (t.node a).neighbor = some b) l ∧
  ∀ x, l.getLast? = some x → (t.node x).neighbor = none

/-- The route-table invariant: keys are distinct, and for every item the
route's head/tail delimit the neighbor-linked list of exactly the nodes
carrying that item, in creation order. -/
def RouteInv (t : FPTree) : Prop :=
  (routeKeys t).Nodup ∧
  ∀ it : Nat,
    linksTo t (itemIds t it) ∧
    (t.routes.find? (fun q => q.1 == it) = none → itemIds t it = []) ∧
    (∀ q, t.routes.find? (fun q2 => q2.1 == it) = some q →
      (itemIds t it).head? = some q.2.1 ∧ (itemIds t it).getLast? = some q.2.2)

/-- The parent chain of a node: ids of all (strict) ancestors up to and
including the root, `fuel`-bounded. -/
def FPTree.ancestorIds (t : FPTree) : Nat → Nat → List Nat
  | 0, _ => []
  | fuel + 1, nid =>
    match (t.node nid).parent with
    | none => []
    | some p => p :: t.ancestorIds fuel p

/-- Structural invariant of every tree the code builds: the arena is
non-empty, slot 0 is the root (item, count and parent absent), children
ids are in range, non-root, and coherent with the child's item, every
non-root node has an item, a count and a parent with a smaller id, and
a node's parent lists it among its children. -/
def WF (t : FPTree) : Prop :=
  0 < t.size ∧
  (t.node 0).item = none ∧ (t.node 0).count = none ∧ (t.node 0).parent = none ∧
  (∀ n, n < t.size → ∀ q ∈ (t.node n).children,
    0 < q.2 ∧ q.2 < t.size ∧ (t.node q.2).item = some q.1) ∧
  (∀ n, 0 < n → n < t.size →
    (∃ j, (t.node n).item = some j) ∧ (∃ c, (t.node n).count = some c) ∧
    (∃ p, (t.node n).parent = some p ∧ p < n)) ∧
  (∀ c, 0 < c → c < t.size → ∀ p, (t.node c).parent = some p →
    ∃ q ∈ (t.node p).children, q.2 = c)

/-- Invariant of the conditional-tree import phase for condition item `ci`:
well-formed, route-correct, non-condition nodes carry count 0, and every
node carrying `ci` is a leaf. -/
def ImportInv (ci : Nat) (t : FPTree) : Prop :=
  WF t ∧ RouteInv t ∧
  (∀ n, 0 < n → n < t.size → (t.node n).item ≠ some ci → (t.node n).count = some 0) ∧
  (∀ n, n < t.size → (t.node n).item = some ci → (t.node n).children = [])

/-- The bump pass changes only counts (and keeps present counts present). -/
def CountOnly (t t' : FPTree) : Prop :=
  t'.size = t.size ∧ t'.routes = t.routes ∧
  ∀ m, (t'.node m).item = (t.node m).item ∧ (t'.node m).parent = (t.node m).parent ∧
    (t'.node m).children = (t.node m).children ∧
    (t'.node m).neighbor = (t.node m).neighbor ∧
    ((t'.node m).count).isSome = ((t.node m).count).isSome

/-- Relation between the import tree `T` and the state of the bump pass
after the route nodes in `Q` have been processed. -/
def BumpRel (ci : Nat) (T : FPTree) (Q : List Nat) (t : FPTree) : Prop :=
  CountOnly T t ∧
  (∀ m, m < T.size → (T.node m).item = some ci → (t.node m).count = (T.node m).count) ∧
  (∀ n, 0 < n → n < T.size → (T.node n).item ≠ some ci →
    (t.node n).count
      = some (((Q.filter (fun m => decide (n ∈ (T.upPath T.size (some m)).tail))).map
          (fun m => (T.node m).count.getD 0)).sum))

/-- Every parent-child edge between item-carrying nodes ascends in the
rank `rho`. -/
def OrdTree (rho : Nat → Nat) (t : FPTree) : Prop :=
  ∀ c, 0 < c → c < t.size → ∀ p, (t.node c).parent = some p → 0 < p →
    ∀ jp jc, (t.node p).item = some jp → (t.node c).item = some jc → rho jp < rho jc

/-- Every item in the tree either ranks strictly below `bound` or equals it. -/
def ItemsBound (rho : Nat → Nat) (bound : Nat) (t : FPTree) : Prop :=
  ∀ n, 0 < n → n < t.size → ∀ jn, (t.node n).item = some jn →
    (rho jn < rho bound ∨ jn = bound)

theorem foldl_range_getD (l : List (List Nat)) (t : FPTree) :
    (List.range l.length).foldl (fun t2 n => t2.add (l.getD n [])) t = l.foldl FPTree.add t := by
  induction l generalizing t with
  | nil => rfl
  | cons a l ih =>
    simp only [List.length_cons, List.range_succ_eq_map, List.foldl_cons, List.foldl_map,
      List.getD_cons_zero, List.getD_cons_succ]
    exact ih (t.add a)

theorem masterTree_cons (t0 : List Nat) (l : List (List Nat)) :
    masterTree (t0 :: l) = buildTree l := by
  unfold masterTree buildTree
  have h1 : (t0 :: l).length - 1 = l.length := by simp
  rw [h1, List.range'_eq_map_range, List.foldl_map]
  have h2 : (fun (t : FPTree) (n : Nat) => t.add ((t0 :: l).getD (1 + n) []))
      = (fun (t : FPTree) (n : Nat) => t.add (l.getD n [])) := by
    funext t n
    rw [Nat.add_comm, List.getD_cons_succ]
  rw [h2]
  exact foldl_range_getD l FPTree.empty

/-- C1: the claim that `find_frequent_itemsets` returns exactly the
itemsets whose brute-force support meets `minimumSupport` fails: for the
single-transaction input with one column (one transaction `{0}`) and
`minimum_support = 1`, the singleton itemset has brute-force support 1 yet
the output is empty, because the master-tree loop starts at index 1 and
skips transaction 0. -/
theorem C1_completeness_fails_on_singleton :
    find_frequent_itemsets [0] [[1]] 1 = [] ∧
    bruteSupport (extractTransactions [0] [[1]]) [0] = 1 := by
  exact ⟨rfl, rfl⟩

/-- C2: on the spec's scenario (transactions `[a,b], [a,b,c], [a], [b,c],
[b]` with `minimumSupport = 2`, encoded as a data frame over columns
`a=0, b=1, c=2`), the code emits `{a}:2, {b}:3, {c}:2, {b,c}:2` - not the
claimed `{a}:3, {b}:4, {c}:2, {a,b}:2, {b,c}:2` - because the first
transaction `[a,b]` is skipped by the index-1 loop. -/
theorem C2_scenario_actual_output :
    find_frequent_itemsets [0, 1, 2] [[1,1,0],[1,1,1],[1,0,0],[0,1,1],[0,1,0]] 2 =
      [([0], 2), ([1], 3), ([2], 2), ([1, 2], 2)] := by
  exact rfl

/-- C3: the master tree handed to the miner is built from the transactions
at positions 1 through len-1 only: prepending any transaction at position
0 yields the same master tree as folding the insertions over the remaining
transactions alone, and the whole mining output is invariant under
replacing the row at position 0. -/
theorem C3_first_transaction_ignored (cols : List Nat) (r0 r0' : List Nat)
    (rows : List (List Nat)) (ms : Int) (t0 : List Nat) (z : List (List Nat)) :
    masterTree (t0 :: z) = buildTree z ∧
    find_frequent_itemsets cols (r0 :: rows) ms
      = find_frequent_itemsets cols (r0' :: rows) ms := by
  refine ⟨masterTree_cons t0 z, ?_⟩
  simp only [find_frequent_itemsets, extractTransactions, List.map_cons, masterTree_cons]

/-- C7: an empty transaction set produces the empty output sequence, for
every minimum support. -/
theorem C7_empty_input (cols : List Nat) (ms : Int) :
    find_frequent_itemsets cols [] ms = [] := rfl

/-- C8: `increment()` on a node with an absent count (the root) fails with
the `ValueError`, producing no updated node; on any node with a present
count - including a conditional-tree node initialized with count 0 - it
returns the node with the count increased by exactly 1. -/
theorem C8_increment_behaviour (n : FPNode) :
    (n.count = none → n.increment = Except.error rootCountErrorMsg) ∧
    (∀ c, n.count = some c → n.increment = Except.ok { n with count := some (c + 1) }) := by
  constructor
  · intro h
    simp [FPNode.increment, h]
  · intro c h
    simp [FPNode.increment, h]

theorem C8_increment_behaviour_witness :
    rootFPNode.increment = Except.error rootCountErrorMsg ∧
    (FPNode.mk (some 5) (some 0) none [] none).increment
      = Except.ok (FPNode.mk (some 5) (some 1) none [] none) := by
  refine ⟨(C8_increment_behaviour rootFPNode).1 rfl, ?_⟩
  have h := (C8_increment_behaviour (FPNode.mk (some 5) (some 0) none [] none)).2 0 rfl
  simpa using h

/-- C9: building a conditional tree from an empty sequence of paths fails
fast (the `assert condition_item is not None`) instead of returning a
tree. -/
theorem C9_empty_paths_error :
    conditional_tree_from_paths [] = Except.error emptyPathsErrorMsg := rfl

/-- C10: when the parent already has a child carrying the child's item,
`add` raises no error and changes nothing at all - the children mapping,
the existing child and the new child's parent field are all left as they
were. -/
theorem C10_duplicate_add_noop (t : FPTree) (pid cid ci : Nat)
    (hitem : (t.node cid).item = some ci)
    (hdup : ((t.node pid).children.find? (fun q => q.1 == ci)).isSome) :
    t.nodeAdd pid cid = t := by
  unfold FPTree.nodeAdd
  rw [hitem]
  simp [hdup]

theorem C10_duplicate_add_noop_witness :
    (FPTree.empty.add [7]).nodeAdd 0 1 = FPTree.empty.add [7] :=
  C10_duplicate_add_noop (FPTree.empty.add [7]) 0 1 7 rfl rfl

/-! ## Route invariant (claim C4)

`itemIds t it` is the specification-side description of a route: the ids of
all nodes carrying `it`, in creation order (ids are allocated in creation
order, so increasing id order is first-created-first order). -/


theorem mem_itemIds (t : FPTree) (it n : Nat) :
    n ∈ itemIds t it ↔ n < t.size ∧ (t.node n).item = some it := by
  simp [itemIds, List.mem_filter, List.mem_range]

theorem itemIds_nodup (t : FPTree) (it : Nat) : (itemIds t it).Nodup :=
  (List.nodup_range t.size).filter _

theorem itemIds_pairwise_lt (t : FPTree) (it : Nat) :
    (itemIds t it).Pairwise (fun a b => a < b) :=
  List.Pairwise.sublist (List.filter_sublist _) (List.pairwise_lt_range t.size)

theorem itemIds_length_le (t : FPTree) (it : Nat) : (itemIds t it).length ≤ t.size := by
  have h := List.length_filter_le (fun n => (t.node n).item == some it) (List.range t.size)
  simpa using h

theorem itemIds_congr (t t' : FPTree) (hs : t'.size = t.size)
    (hi : ∀ m, (t'.node m).item = (t.node m).item) (it : Nat) :
    itemIds t' it = itemIds t it := by
  unfold itemIds
  rw [hs]
  exact List.filter_congr (fun m _ => by rw [hi])

theorem linksTo_congr (t t' : FPTree) (l : List Nat)
    (hn : ∀ m ∈ l, (t'.node m).neighbor = (t.node m).neighbor) (h : linksTo t l) :
    linksTo t' l := by
  constructor
  · have : ∀ (l2 : List Nat), (∀ m ∈ l2, (t'.node m).neighbor = (t.node m).neighbor) →
        List.Chain' (fun a b => (t.node a).neighbor = some b) l2 →
        List.Chain' (fun a b => (t'.node a).neighbor = some b) l2 := by
      intro l2
      induction l2 with
      | nil => intro _ _; exact List.chain'_nil
      | cons a l2 ih =>
        intro hmem hc
        rw [List.chain'_cons'] at hc ⊢
        refine ⟨fun y hy => ?_, ih (fun m hm => hmem m (List.mem_cons_of_mem a hm)) hc.2⟩
        rw [hmem a (List.mem_cons_self a l2)]
        exact hc.1 y hy
    exact this l hn h.1
  · intro x hx
    rw [hn x (List.mem_of_mem_getLast? (by rw [hx]; rfl))]
    exact h.2 x hx

theorem RouteInv_congr (t t' : FPTree) (hs : t'.size = t.size) (hr : t'.routes = t.routes)
    (hi : ∀ m, (t'.node m).item = (t.node m).item)
    (hn : ∀ m, (t'.node m).neighbor = (t.node m).neighbor) (h : RouteInv t) : RouteInv t' := by
  obtain ⟨hk, hrt⟩ := h
  constructor
  · rw [routeKeys, hr]; exact hk
  · intro it
    rw [itemIds_congr t t' hs hi, hr]
    exact ⟨linksTo_congr t t' _ (fun m _ => hn m) (hrt it).1, (hrt it).2.1, (hrt it).2.2⟩

/-! ### How each primitive transforms the fields the route invariant reads -/

theorem setNode_size (t : FPTree) (n : Nat) (v : FPNode) : (t.setNode n v).size = t.size := rfl

theorem setNode_routes (t : FPTree) (n : Nat) (v : FPNode) :
    (t.setNode n v).routes = t.routes := rfl

theorem setNode_node (t : FPTree) (n : Nat) (v : FPNode) (m : Nat) :
    (t.setNode n v).node m = if m = n then v else t.node m := rfl

theorem incAt_none (t : FPTree) (nid : Nat) (h : (t.node nid).count = none) :
    t.incAt nid = t := by
  unfold FPTree.incAt FPNode.increment
  rw [h]

theorem incAt_some (t : FPTree) (nid c : Nat) (h : (t.node nid).count = some c) :
    t.incAt nid = t.setNode nid { t.node nid with count := some (c + 1) } := by
  unfold FPTree.incAt FPNode.increment
  rw [h]

theorem incAt_view (t : FPTree) (nid : Nat) :
    (t.incAt nid).size = t.size ∧ (t.incAt nid).routes = t.routes ∧
    ∀ m, ((t.incAt nid).node m).item = (t.node m).item ∧
      ((t.incAt nid).node m).neighbor = (t.node m).neighbor ∧
      ((t.incAt nid).node m).parent = (t.node m).parent ∧
      ((t.incAt nid).node m).children = (t.node m).children := by
  cases hc : (t.node nid).count with
  | none =>
    rw [incAt_none t nid hc]
    exact ⟨rfl, rfl, fun m => ⟨rfl, rfl, rfl, rfl⟩⟩
  | some c =>
    rw [incAt_some t nid c hc]
    refine ⟨rfl, rfl, fun m => ?_⟩
    simp only [setNode_node]
    by_cases hm : m = nid <;> simp [hm]

theorem nodeAdd_noneItem (t : FPTree) (pid cid : Nat) (h : (t.node cid).item = none) :
    t.nodeAdd pid cid = t := by
  unfold FPTree.nodeAdd
  rw [h]

theorem nodeAdd_dup (t : FPTree) (pid cid ci : Nat) (h : (t.node cid).item = some ci)
    (hdup : ((t.node pid).children.find? (fun q => q.1 == ci)).isSome = true) :
    t.nodeAdd pid cid = t := by
  unfold FPTree.nodeAdd
  split
  · rfl
  · next ci2 heq =>
    rw [h] at heq
    cases heq
    rw [if_pos hdup]

theorem nodeAdd_new (t : FPTree) (pid cid ci : Nat) (h : (t.node cid).item = some ci)
    (hdup : ((t.node pid).children.find? (fun q => q.1 == ci)).isSome = false) :
    t.nodeAdd pid cid =
      (t.setNode pid
          { t.node pid with children := (t.node pid).children ++ [(ci, cid)] }).setNode cid
        { (t.setNode pid
            { t.node pid with
              children := (t.node pid).children ++ [(ci, cid)] }).node cid with
          parent := some pid } := by
  unfold FPTree.nodeAdd
  split
  · next heq => rw [h] at heq; cases heq
  · next ci2 heq =>
    rw [h] at heq
    cases heq
    rw [if_neg (by simp [hdup])]

theorem nodeAdd_view (t : FPTree) (pid cid : Nat) :
    (t.nodeAdd pid cid).size = t.size ∧ (t.nodeAdd pid cid).routes = t.routes ∧
    ∀ m, ((t.nodeAdd pid cid).node m).item = (t.node m).item ∧
      ((t.nodeAdd pid cid).node m).neighbor = (t.node m).neighbor ∧
      ((t.nodeAdd pid cid).node m).count = (t.node m).count := by
  cases hci : (t.node cid).item with
  | none =>
    rw [nodeAdd_noneItem t pid cid hci]
    exact ⟨rfl, rfl, fun m => ⟨rfl, rfl, rfl⟩⟩
  | some ci =>
    cases hdup : ((t.node pid).children.find? (fun q => q.1 == ci)).isSome with
    | true =>
      rw [nodeAdd_dup t pid cid ci hci hdup]
      exact ⟨rfl, rfl, fun m => ⟨rfl, rfl, rfl⟩⟩
    | false =>
      rw [nodeAdd_new t pid cid ci hci hdup]
      refine ⟨rfl, rfl, fun m => ?_⟩
      simp only [setNode_node]
      by_cases h1 : m = cid
      · by_cases h2 : cid = pid <;> simp [h1, h2]
      · by_cases h2 : m = pid
        · have hpc : ¬ pid = cid := fun hc => h1 (h2.trans hc)
          simp [h1, h2, hpc]
        · simp [h1, h2]

theorem createNode_desc (t : FPTree) (it cnt : Option Nat) :
    (t.createNode it cnt).2 = t.size ∧
    (t.createNode it cnt).1.size = t.size + 1 ∧
    (t.createNode it cnt).1.routes = t.routes ∧
    ∀ m, (t.createNode it cnt).1.node m
      = if m = t.size then FPNode.mk it cnt none [] none else t.node m :=
  ⟨rfl, rfl, rfl, fun _ => rfl⟩

theorem updateRoute_desc_some (t : FPTree) (nid it : Nat) (q : Nat × Nat × Nat)
    (hit : (t.node nid).item = some it)
    (hfind : t.routes.find? (fun q2 => q2.1 == it) = some q) :
    (t.updateRoute nid).size = t.size ∧
    (t.updateRoute nid).routes
      = t.routes.map (fun q2 => if q2.1 == it then (it, q.2.1, nid) else q2) ∧
    ∀ m, (t.updateRoute nid).node m
      = if m = q.2.2 then { t.node q.2.2 with neighbor := some nid } else t.node m := by
  unfold FPTree.updateRoute
  split
  · next heq => rw [hit] at heq; cases heq
  · next it2 heq =>
    rw [hit] at heq
    cases heq
    split
    · next q2 hfind2 =>
      rw [hfind] at hfind2
      cases hfind2
      exact ⟨rfl, rfl, fun m => rfl⟩
    · next hfind2 =>
      rw [hfind] at hfind2
      cases hfind2

theorem updateRoute_desc_none (t : FPTree) (nid it : Nat)
    (hit : (t.node nid).item = some it)
    (hfind : t.routes.find? (fun q2 => q2.1 == it) = none) :
    (t.updateRoute nid).size = t.size ∧
    (t.updateRoute nid).routes = t.routes ++ [(it, nid, nid)] ∧
    ∀ m, (t.updateRoute nid).node m = t.node m := by
  unfold FPTree.updateRoute
  split
  · next heq => rw [hit] at heq; cases heq
  · next it2 heq =>
    rw [hit] at heq
    cases heq
    split
    · next q2 hfind2 =>
      rw [hfind] at hfind2
      cases hfind2
    · next hfind2 =>
      exact ⟨rfl, rfl, fun m => rfl⟩

theorem insertNewNode_desc_found (t : FPTree) (point it cnt : Nat) (q : Nat × Nat × Nat)
    (hfind : t.routes.find? (fun q2 => q2.1 == it) = some q) (htl : q.2.2 ≠ t.size) :
    (t.insertNewNode point it cnt).2 = t.size ∧
    (t.insertNewNode point it cnt).1.size = t.size + 1 ∧
    (t.insertNewNode point it cnt).1.routes
      = t.routes.map (fun q2 => if q2.1 == it then (it, q.2.1, t.size) else q2) ∧
    (∀ m, ((t.insertNewNode point it cnt).1.node m).item
      = if m = t.size then some it else (t.node m).item) ∧
    (∀ m, ((t.insertNewNode point it cnt).1.node m).neighbor
      = if m = q.2.2 then some t.size
        else if m = t.size then none else (t.node m).neighbor) ∧
    (∀ m, ((t.insertNewNode point it cnt).1.node m).count
      = if m = t.size then some cnt else (t.node m).count) := by
  have h1node : ∀ m, (t.createNode (some it) (some cnt)).1.node m
      = if m = t.size then ⟨some it, some cnt, none, [], none⟩ else t.node m := fun m => rfl
  obtain ⟨h2size, h2routes, h2fields⟩ :=
    nodeAdd_view (t.createNode (some it) (some cnt)).1 point t.size
  have h2item_nid :
      (((t.createNode (some it) (some cnt)).1.nodeAdd point t.size).node t.size).item
        = some it := by
    rw [(h2fields t.size).1, h1node]
    simp
  have h2find : (((t.createNode (some it) (some cnt)).1.nodeAdd point t.size)).routes.find?
      (fun q2 => q2.1 == it) = some q := by
    rw [h2routes]
    exact hfind
  obtain ⟨h3size, h3routes, h3node⟩ :=
    updateRoute_desc_some _ t.size it q h2item_nid h2find
  have hres : (t.insertNewNode point it cnt).1
      = ((t.createNode (some it) (some cnt)).1.nodeAdd point t.size).updateRoute t.size := rfl
  refine ⟨rfl, ?_, ?_, ?_, ?_, ?_⟩
  · rw [hres, h3size, h2size]
    rfl
  · rw [hres, h3routes, h2routes]
    rfl
  · intro m
    rw [hres, h3node]
    by_cases hm : m = q.2.2
    · rw [if_pos hm]
      show ((_ : FPNode)).item = _
      rw [(h2fields q.2.2).1, h1node, if_neg htl, hm, if_neg (hm ▸ htl)]
    · rw [if_neg hm, (h2fields m).1, h1node]
      by_cases hm2 : m = t.size <;> simp [hm2]
  · intro m
    rw [hres, h3node]
    by_cases hm : m = q.2.2
    · rw [if_pos hm, if_pos hm]
    · rw [if_neg hm, if_neg hm, (h2fields m).2.1, h1node]
      by_cases hm2 : m = t.size
      · rw [if_pos hm2, if_pos hm2]
      · rw [if_neg hm2, if_neg hm2]
  · intro m
    rw [hres, h3node]
    by_cases hm : m = q.2.2
    · rw [if_pos hm]
      show ((_ : FPNode)).count = _
      rw [(h2fields q.2.2).2.2, h1node, if_neg htl, hm, if_neg (hm ▸ htl)]
    · rw [if_neg hm, (h2fields m).2.2, h1node]
      by_cases hm2 : m = t.size <;> simp [hm2]

theorem insertNewNode_desc_none (t : FPTree) (point it cnt : Nat)
    (hfind : t.routes.find? (fun q2 => q2.1 == it) = none) :
    (t.insertNewNode point it cnt).2 = t.size ∧
    (t.insertNewNode point it cnt).1.size = t.size + 1 ∧
    (t.insertNewNode point it cnt).1.routes = t.routes ++ [(it, t.size, t.size)] ∧
    (∀ m, ((t.insertNewNode point it cnt).1.node m).item
      = if m = t.size then some it else (t.node m).item) ∧
    (∀ m, ((t.insertNewNode point it cnt).1.node m).neighbor
      = if m = t.size then none else (t.node m).neighbor) ∧
    (∀ m, ((t.insertNewNode point it cnt).1.node m).count
      = if m = t.size then some cnt else (t.node m).count) := by
  have h1node : ∀ m, (t.createNode (some it) (some cnt)).1.node m
      = if m = t.size then ⟨some it, some cnt, none, [], none⟩ else t.node m := fun m => rfl
  obtain ⟨h2size, h2routes, h2fields⟩ :=
    nodeAdd_view (t.createNode (some it) (some cnt)).1 point t.size
  have h2item_nid :
      (((t.createNode (some it) (some cnt)).1.nodeAdd point t.size).node t.size).item
        = some it := by
    rw [(h2fields t.size).1, h1node]
    simp
  have h2find : (((t.createNode (some it) (some cnt)).1.nodeAdd point t.size)).routes.find?
      (fun q2 => q2.1 == it) = none := by
    rw [h2routes]
    exact hfind
  obtain ⟨h3size, h3routes, h3node⟩ :=
    updateRoute_desc_none _ t.size it h2item_nid h2find
  have hres : (t.insertNewNode point it cnt).1
      = ((t.createNode (some it) (some cnt)).1.nodeAdd point t.size).updateRoute t.size := rfl
  refine ⟨rfl, ?_, ?_, ?_, ?_, ?_⟩
  · rw [hres, h3size, h2size]
    rfl
  · rw [hres, h3routes, h2routes]
    rfl
  · intro m
    rw [hres, h3node, (h2fields m).1, h1node]
    by_cases hm2 : m = t.size <;> simp [hm2]
  · intro m
    rw [hres, h3node, (h2fields m).2.1, h1node]
    by_cases hm : m = t.size
    · rw [if_pos hm, if_pos hm]
    · rw [if_neg hm, if_neg hm]
  · intro m
    rw [hres, h3node, (h2fields m).2.2, h1node]
    by_cases hm2 : m = t.size <;> simp [hm2]

theorem itemIds_insert (t t' : FPTree) (it : Nat) (hsize : t'.size = t.size + 1)
    (hitem : ∀ m, (t'.node m).item = if m = t.size then some it else (t.node m).item)
    (j : Nat) :
    itemIds t' j = itemIds t j ++ (if j = it then [t.size] else []) := by
  unfold itemIds
  rw [hsize, List.range_succ, List.filter_append]
  congr 1
  · apply List.filter_congr
    intro m hm
    rw [hitem, if_neg (Nat.ne_of_lt (List.mem_range.mp hm))]
  · by_cases hj : j = it
    · subst hj
      simp [hitem]
    · rw [if_neg hj]
      show List.filter _ [t.size] = []
      rw [List.filter_cons]
      rw [if_neg (by rw [hitem, if_pos rfl]
                     simp
                     exact fun hh => hj hh.symm)]
      rfl

theorem linksTo_snoc (t t' : FPTree) (l : List Nat) (tl nid : Nat)
    (hl : linksTo t l) (hlast : l.getLast? = some tl) (hnd : l.Nodup)
    (hnb : ∀ m ∈ l, m ≠ tl → (t'.node m).neighbor = (t.node m).neighbor)
    (hnbtl : (t'.node tl).neighbor = some nid)
    (hnbnew : (t'.node nid).neighbor = none) :
    linksTo t' (l ++ [nid]) := by
  constructor
  · have main : ∀ (l2 : List Nat), linksTo t l2 → l2.getLast? = some tl → l2.Nodup →
        (∀ m ∈ l2, m ≠ tl → (t'.node m).neighbor = (t.node m).neighbor) →
        List.Chain' (fun a b => (t'.node a).neighbor = some b) (l2 ++ [nid]) := by
      intro l2
      induction l2 with
      | nil => intro _ h _ _; cases h
      | cons a rest ih =>
        intro hl2 hlast2 hnd2 hnb2
        cases rest with
        | nil =>
          cases hlast2
          exact List.chain'_pair.mpr hnbtl
        | cons b rest2 =>
          simp only [List.cons_append]
          rw [List.chain'_cons]
          constructor
          · have ha : a ≠ tl := by
              intro hc
              subst hc
              have : a ∈ b :: rest2 :=
                List.mem_of_mem_getLast? (by rw [List.getLast?_cons_cons] at hlast2
                                             rw [hlast2]; rfl)
              exact (List.nodup_cons.mp hnd2).1 this
            rw [hnb2 a (List.mem_cons_self a _) ha]
            exact (List.chain'_cons.mp hl2.1).1
          · refine ih ⟨(List.chain'_cons.mp hl2.1).2, fun x hx => hl2.2 x ?_⟩
              (by rw [List.getLast?_cons_cons] at hlast2; exact hlast2)
              (List.nodup_cons.mp hnd2).2
              (fun m hm hmtl => hnb2 m (List.mem_cons_of_mem a hm) hmtl)
            rw [← List.getLast?_cons_cons (a := a)]
            exact hx
    exact main l hl hlast hnd hnb
  · intro x hx
    rw [List.getLast?_concat] at hx
    cases hx
    exact hnbnew

theorem chain_of_linksTo (t : FPTree) (l : List Nat) :
    ∀ fuel, linksTo t l → l.length ≤ fuel → t.chain fuel l.head? = l := by
  induction l with
  | nil =>
    intro fuel _ _
    cases fuel <;> rfl
  | cons a rest ih =>
    intro fuel h hf
    cases fuel with
    | zero => cases hf
    | succ f =>
      show a :: t.chain f (t.node a).neighbor = a :: rest
      congr 1
      cases rest with
      | nil =>
        rw [h.2 a (by simp)]
        cases f <;> rfl
      | cons b rest2 =>
        have hab : (t.node a).neighbor = some b := (List.chain'_cons.mp h.1).1
        rw [hab]
        refine ih f ⟨(List.chain'_cons.mp h.1).2, fun x hx => h.2 x ?_⟩
          (Nat.le_of_succ_le_succ hf)
        rw [← List.getLast?_cons_cons (a := a)]
        exact hx

theorem fst_routeUpdate (l : List (Nat × Nat × Nat)) (it hd tl : Nat) :
    (l.map (fun q2 => if q2.1 == it then (it, hd, tl) else q2)).map (fun q => q.1)
      = l.map (fun q => q.1) := by
  rw [List.map_map]
  apply List.map_congr_left
  intro a _
  by_cases h : a.1 = it <;> simp [h]

theorem find?_routeUpdate (l : List (Nat × Nat × Nat)) (it hd tl j : Nat) (q : Nat × Nat × Nat)
    (hfind : l.find? (fun q2 => q2.1 == it) = some q) :
    (l.map (fun q2 => if q2.1 == it then (it, hd, tl) else q2)).find? (fun q2 => q2.1 == j)
      = if j = it then some (it, hd, tl) else l.find? (fun q2 => q2.1 == j) := by
  rw [List.find?_map]
  have hcomp : ((fun q2 : Nat × Nat × Nat => q2.1 == j)
      ∘ (fun q2 => if q2.1 == it then (it, hd, tl) else q2)) = fun q2 => q2.1 == j := by
    funext a
    by_cases h : a.1 = it <;> simp [Function.comp, h]
  rw [hcomp]
  by_cases hj : j = it
  · subst hj
    rw [if_pos rfl, hfind]
    have : q.1 = j := by simpa using List.find?_some hfind
    simp [Option.map_some, this]
  · rw [if_neg hj]
    cases hfq : l.find? (fun q2 => q2.1 == j) with
    | none => rfl
    | some q2 =>
      have : q2.1 = j := by simpa using List.find?_some hfq
      simp [Option.map_some, this, hj]

theorem find?_routeAppend (l : List (Nat × Nat × Nat)) (it nid j : Nat)
    (hfind : l.find? (fun q2 => q2.1 == it) = none) :
    (l ++ [(it, nid, nid)]).find? (fun q2 => q2.1 == j)
      = if j = it then some (it, nid, nid) else l.find? (fun q2 => q2.1 == j) := by
  rw [List.find?_append]
  by_cases hj : j = it
  · subst hj
    rw [hfind, if_pos rfl]
    simp
  · rw [if_neg hj]
    have hb : ((((it, nid, nid) : Nat × Nat × Nat)).1 == j) = false := by
      simp
      exact fun hc => hj hc.symm
    have : List.find? (fun q2 : Nat × Nat × Nat => q2.1 == j) [(it, nid, nid)] = none := by
      simp [List.find?_cons, hb]
    rw [this, Option.or_none]

theorem RouteInv_insertNewNode (t : FPTree) (point it cnt : Nat) (h : RouteInv t) :
    RouteInv (t.insertNewNode point it cnt).1 := by
  cases hfind : t.routes.find? (fun q2 => q2.1 == it) with
  | none =>
    obtain ⟨hsnd, hsize, hroutes, hitem, hnb, hcount⟩ :=
      insertNewNode_desc_none t point it cnt hfind
    have hempty : itemIds t it = [] := (h.2 it).2.1 hfind
    have hids := itemIds_insert t _ it hsize hitem
    have hfind' : ∀ j, (t.insertNewNode point it cnt).1.routes.find? (fun q2 => q2.1 == j)
        = if j = it then some (it, t.size, t.size)
          else t.routes.find? (fun q2 => q2.1 == j) := by
      intro j
      rw [hroutes]
      exact find?_routeAppend t.routes it t.size j hfind
    constructor
    · rw [routeKeys, hroutes, List.map_append, List.nodup_append]
      refine ⟨h.1, by simp, ?_⟩
      intro a ha hb
      simp only [List.map_cons, List.map_nil, List.mem_singleton] at hb
      subst hb
      obtain ⟨x, hx, hxa⟩ := List.mem_map.mp ha
      have := List.find?_eq_none.mp hfind x hx
      simp at this
      exact this hxa
    · intro j
      by_cases hj : j = it
      · subst hj
        have hl' : itemIds (t.insertNewNode point j cnt).1 j = [t.size] := by
          rw [hids j, hempty, if_pos rfl]
          rfl
        refine ⟨?_, ?_, ?_⟩
        · rw [hl']
          constructor
          · exact List.chain'_singleton t.size
          · intro x hx
            simp at hx
            subst hx
            rw [hnb, if_pos rfl]
        · intro hnone
          rw [hfind' j, if_pos rfl] at hnone
          cases hnone
        · intro q' hq'
          rw [hfind' j, if_pos rfl] at hq'
          cases hq'
          rw [hl']
          exact ⟨rfl, rfl⟩
      · have hl' : itemIds (t.insertNewNode point it cnt).1 j = itemIds t j := by
          rw [hids j, if_neg hj, List.append_nil]
        refine ⟨?_, ?_, ?_⟩
        · rw [hl']
          refine linksTo_congr t _ _ ?_ (h.2 j).1
          intro m hm
          rw [hnb, if_neg (Nat.ne_of_lt ((mem_itemIds t j m).mp hm).1)]
        · intro hnone
          rw [hfind' j, if_neg hj] at hnone
          rw [hl']
          exact (h.2 j).2.1 hnone
        · intro q' hq'
          rw [hfind' j, if_neg hj] at hq'
          rw [hl']
          exact (h.2 j).2.2 q' hq'
  | some q =>
    have hq := (h.2 it).2.2 q hfind
    have htl_mem : q.2.2 ∈ itemIds t it :=
      List.mem_of_mem_getLast? (by rw [hq.2]; rfl)
    have htl_lt : q.2.2 < t.size := ((mem_itemIds t it q.2.2).mp htl_mem).1
    have htl_item : (t.node q.2.2).item = some it := ((mem_itemIds t it q.2.2).mp htl_mem).2
    have htl : q.2.2 ≠ t.size := Nat.ne_of_lt htl_lt
    obtain ⟨hsnd, hsize, hroutes, hitem, hnb, hcount⟩ :=
      insertNewNode_desc_found t point it cnt q hfind htl
    have hids := itemIds_insert t _ it hsize hitem
    have hfind' : ∀ j, (t.insertNewNode point it cnt).1.routes.find? (fun q2 => q2.1 == j)
        = if j = it then some (it, q.2.1, t.size)
          else t.routes.find? (fun q2 => q2.1 == j) := by
      intro j
      rw [hroutes]
      exact find?_routeUpdate t.routes it q.2.1 t.size j q hfind
    constructor
    · rw [routeKeys, hroutes, fst_routeUpdate]
      exact h.1
    · intro j
      by_cases hj : j = it
      · subst hj
        have hl' : itemIds (t.insertNewNode point j cnt).1 j = itemIds t j ++ [t.size] := by
          rw [hids j, if_pos rfl]
        refine ⟨?_, ?_, ?_⟩
        · rw [hl']
          refine linksTo_snoc t _ (itemIds t j) q.2.2 t.size (h.2 j).1 hq.2
            (itemIds_nodup t j) ?_ ?_ ?_
          · intro m hm hmtl
            rw [hnb, if_neg hmtl, if_neg (Nat.ne_of_lt ((mem_itemIds t j m).mp hm).1)]
          · rw [hnb, if_pos rfl]
          · rw [hnb, if_neg (fun hc => htl hc.symm), if_pos rfl]
        · intro hnone
          rw [hfind' j, if_pos rfl] at hnone
          cases hnone
        · intro q' hq'
          rw [hfind' j, if_pos rfl] at hq'
          cases hq'
          constructor
          · rw [hl', List.head?_append, hq.1, Option.or_some]
          · rw [hl', List.getLast?_concat]
      · have hl' : itemIds (t.insertNewNode point it cnt).1 j = itemIds t j := by
          rw [hids j, if_neg hj, List.append_nil]
        refine ⟨?_, ?_, ?_⟩
        · rw [hl']
          refine linksTo_congr t _ _ ?_ (h.2 j).1
          intro m hm
          have hmj := (mem_itemIds t j m).mp hm
          have hmtl : m ≠ q.2.2 := by
            intro hc
            subst hc
            rw [hmj.2] at htl_item
            exact hj (Option.some.inj htl_item)
          rw [hnb, if_neg hmtl, if_neg (Nat.ne_of_lt hmj.1)]
        · intro hnone
          rw [hfind' j, if_neg hj] at hnone
          rw [hl']
          exact (h.2 j).2.1 hnone
        · intro q' hq'
          rw [hfind' j, if_neg hj] at hq'
          rw [hl']
          exact (h.2 j).2.2 q' hq'

theorem RouteInv_empty : RouteInv FPTree.empty := by
  constructor
  · exact List.nodup_nil
  · intro it
    have hids : itemIds FPTree.empty it = [] := rfl
    refine ⟨?_, fun _ => hids, fun q hq => ?_⟩
    · rw [hids]
      exact ⟨List.chain'_nil, fun x hx => by cases hx⟩
    · cases hq

theorem RouteInv_addStep (acc : FPTree × Nat) (it : Nat) (h : RouteInv acc.1) :
    RouteInv (FPTree.addStep acc it).1 := by
  unfold FPTree.addStep
  cases hs : acc.1.searchChild acc.2 it with
  | some np =>
    obtain ⟨h1, h2, h3⟩ := incAt_view acc.1 np
    exact RouteInv_congr acc.1 _ h1 h2 (fun m => (h3 m).1) (fun m => (h3 m).2.1) h
  | none => exact RouteInv_insertNewNode acc.1 acc.2 it 1 h

theorem RouteInv_foldSteps (l : List Nat) :
    ∀ acc : FPTree × Nat, RouteInv acc.1 → RouteInv (l.foldl FPTree.addStep acc).1 := by
  induction l with
  | nil =>
    intro acc h
    exact h
  | cons a l ih =>
    intro acc h
    exact ih _ (RouteInv_addStep acc a h)

theorem RouteInv_add (t : FPTree) (tr : List Nat) (h : RouteInv t) : RouteInv (t.add tr) :=
  RouteInv_foldSteps tr (t, 0) h

theorem RouteInv_buildTree (ts : List (List Nat)) : RouteInv (buildTree ts) := by
  unfold buildTree
  have main : ∀ t, RouteInv t → RouteInv (ts.foldl FPTree.add t) := by
    induction ts with
    | nil =>
      intro t h
      exact h
    | cons a ts ih =>
      intro t h
      exact ih _ (RouteInv_add t a h)
  exact main FPTree.empty RouteInv_empty

theorem nodesList_eq_itemIds (t : FPTree) (h : RouteInv t) (j : Nat) :
    t.nodesList j = itemIds t j := by
  unfold FPTree.nodesList
  cases hfind : t.routes.find? (fun q => q.1 == j) with
  | none => exact ((h.2 j).2.1 hfind).symm
  | some q =>
    obtain ⟨hh, _⟩ := (h.2 j).2.2 q hfind
    have hc := chain_of_linksTo t (itemIds t j) t.size (h.2 j).1 (itemIds_length_le t j)
    rw [hh] at hc
    exact hc

/-- C4: after any sequence of insertions building a tree, traversing
neighbor links from the route head (as `nodes(item)` does) enumerates
exactly the nodes of the tree carrying that item - each exactly once, none
omitted - in the order the nodes were created (node ids are allocated in
creation order, so increasing-id order is first-created-first order). -/
theorem C4_route_enumeration (ts : List (List Nat)) (it : Nat) :
    (buildTree ts).nodesList it = itemIds (buildTree ts) it ∧
    ((buildTree ts).nodesList it).Pairwise (fun a b => a < b) ∧
    ∀ n, n ∈ (buildTree ts).nodesList it
      ↔ (n < (buildTree ts).size ∧ ((buildTree ts).node n).item = some it) := by
  have h := nodesList_eq_itemIds (buildTree ts) (RouteInv_buildTree ts) it
  refine ⟨h, ?_, fun n => ?_⟩
  · rw [h]
    exact itemIds_pairwise_lt _ it
  · rw [h]
    exact mem_itemIds _ it n

/-! ## Structural well-formedness (shared by claims C5 and C6) -/


theorem ancestorIds_congr (t t' : FPTree)
    (hp : ∀ n, (t'.node n).parent = (t.node n).parent) :
    ∀ fuel m, t'.ancestorIds fuel m = t.ancestorIds fuel m := by
  intro fuel
  induction fuel with
  | zero => intro m; rfl
  | succ f ih =>
    intro m
    show (match (t'.node m).parent with
          | none => []
          | some p => p :: t'.ancestorIds f p)
        = (match (t.node m).parent with
          | none => []
          | some p => p :: t.ancestorIds f p)
    rw [hp m]
    cases (t.node m).parent with
    | none => rfl
    | some p =>
      show p :: t'.ancestorIds f p = p :: t.ancestorIds f p
      rw [ih p]

theorem ancestorIds_fuel (t : FPTree) (hwf : WF t) :
    ∀ m, m < t.size → ∀ f g, m < f → m < g → t.ancestorIds f m = t.ancestorIds g m := by
  intro m
  induction m using Nat.strong_induction_on with
  | _ m ih =>
    intro hm f g hf hg
    cases f with
    | zero => omega
    | succ f =>
      cases g with
      | zero => omega
      | succ g =>
        show (match (t.node m).parent with
              | none => [] | some p => p :: t.ancestorIds f p)
            = (match (t.node m).parent with
              | none => [] | some p => p :: t.ancestorIds g p)
        by_cases hm0 : m = 0
        · subst hm0
          rw [hwf.2.2.2.1]
        · obtain ⟨_, _, p, hp, hplt⟩ := hwf.2.2.2.2.2.1 m (Nat.pos_of_ne_zero hm0) hm
          rw [hp]
          show p :: t.ancestorIds f p = p :: t.ancestorIds g p
          rw [ih p hplt (by omega) f g (by omega) (by omega)]

theorem ancestorIds_root (t : FPTree) (hroot : (t.node 0).parent = none) :
    ∀ f, t.ancestorIds f 0 = [] := by
  intro f
  cases f with
  | zero => rfl
  | succ f =>
    show (match (t.node 0).parent with
          | none => [] | some p => p :: t.ancestorIds f p) = []
    rw [hroot]

theorem upPath_root (t : FPTree) (hitem : (t.node 0).item = none)
    (hcount : (t.node 0).count = none) : ∀ f, t.upPath f (some 0) = [] := by
  intro f
  cases f with
  | zero => rfl
  | succ f =>
    have hroot : (t.node 0).isRoot = true := by
      unfold FPNode.isRoot
      rw [hitem, hcount]
      rfl
    show (if (t.node 0).isRoot then [] else 0 :: t.upPath f (t.node 0).parent) = []
    rw [hroot]
    rfl

/-- The full shape of a non-root node's ancestor chain. -/
theorem ancestorIds_spec (t : FPTree) (hwf : WF t) :
    ∀ m, 0 < m → m < t.size → ∀ f, m < f →
    ∃ l, t.ancestorIds f m = l ++ [0] ∧ t.upPath f (some m) = m :: l ∧
      (∀ x ∈ l, 0 < x ∧ x < t.size) ∧
      List.Chain' (fun a b => (t.node a).parent = some b) (m :: (l ++ [0])) ∧
      List.Chain' (fun a b => b < a) (m :: l) := by
  intro m
  induction m using Nat.strong_induction_on with
  | _ m ih =>
    intro hm0 hmlt f hf
    obtain ⟨⟨j, hj⟩, ⟨c, hc⟩, p, hp, hplt⟩ := hwf.2.2.2.2.2.1 m hm0 hmlt
    cases f with
    | zero => omega
    | succ f =>
      have hanc : t.ancestorIds (f + 1) m = p :: t.ancestorIds f p := by
        show (match (t.node m).parent with
              | none => [] | some p2 => p2 :: t.ancestorIds f p2) = _
        rw [hp]
      have hnotroot : (t.node m).isRoot = false := by
        unfold FPNode.isRoot
        rw [hj]
        rfl
      have hup : t.upPath (f + 1) (some m) = m :: t.upPath f (some p) := by
        show (if (t.node m).isRoot then [] else m :: t.upPath f (t.node m).parent) = _
        rw [hnotroot, hp]
        rfl
      by_cases hp0 : p = 0
      · subst hp0
        refine ⟨[], ?_, ?_, ?_, ?_, ?_⟩
        · rw [hanc, ancestorIds_root t hwf.2.2.2.1 f]
          rfl
        · rw [hup, upPath_root t hwf.2.1 hwf.2.2.1 f]
        · intro x hx
          cases hx
        · simp only [List.nil_append]
          exact List.chain'_pair.mpr hp
        · exact List.chain'_singleton m
      · have hpp : 0 < p := Nat.pos_of_ne_zero hp0
        obtain ⟨l, ha, hu, hb, hch, hdec⟩ := ih p hplt hpp (by omega) f (by omega)
        refine ⟨p :: l, ?_, ?_, ?_, ?_, ?_⟩
        · rw [hanc, ha]
          rfl
        · rw [hup, hu]
        · intro x hx
          cases hx with
          | head => exact ⟨hpp, by omega⟩
          | tail _ hx2 => exact hb x hx2
        · show List.Chain' _ (m :: p :: (l ++ [0]))
          rw [List.chain'_cons]
          exact ⟨hp, hch⟩
        · rw [List.chain'_cons]
          exact ⟨hplt, hdec⟩

theorem updateRoute_pc (t : FPTree) (nid : Nat) :
    ∀ m, ((t.updateRoute nid).node m).parent = (t.node m).parent ∧
      ((t.updateRoute nid).node m).children = (t.node m).children ∧
      ((t.updateRoute nid).node m).item = (t.node m).item ∧
      ((t.updateRoute nid).node m).count = (t.node m).count := by
  intro m
  unfold FPTree.updateRoute
  split
  · exact ⟨rfl, rfl, rfl, rfl⟩
  · next it2 heq =>
    split
    · next q hfq =>
      show (((t.setNode q.2.2 _).setRoute _ _ _).node m).parent = _ ∧ _
      unfold FPTree.setRoute
      show ((t.setNode q.2.2 _).node m).parent = _ ∧ _
      simp only [setNode_node]
      by_cases hm : m = q.2.2 <;> simp [hm]
    · exact ⟨rfl, rfl, rfl, rfl⟩

theorem insertNewNode_struct (t : FPTree) (point it cnt : Nat) (hpoint : point < t.size)
    (hsearch : t.searchChild point it = none) :
    (∀ m, ((t.insertNewNode point it cnt).1.node m).parent
      = if m = t.size then some point else (t.node m).parent) ∧
    (∀ m, ((t.insertNewNode point it cnt).1.node m).children
      = if m = point then (t.node point).children ++ [(it, t.size)]
        else if m = t.size then [] else (t.node m).children) := by
  have hpn : point ≠ t.size := Nat.ne_of_lt hpoint
  have hfindc : (t.node point).children.find? (fun q => q.1 == it) = none := by
    unfold FPTree.searchChild at hsearch
    exact Option.map_eq_none'.mp hsearch
  have h1node : ∀ m, (t.createNode (some it) (some cnt)).1.node m
      = if m = t.size then ⟨some it, some cnt, none, [], none⟩ else t.node m := fun m => rfl
  have hitem1 : ((t.createNode (some it) (some cnt)).1.node t.size).item = some it := by
    rw [h1node]
    simp
  have hdup1 : (((t.createNode (some it) (some cnt)).1.node point).children.find?
      (fun q => q.1 == it)).isSome = false := by
    rw [h1node, if_neg hpn, hfindc]
    rfl
  have h2 := nodeAdd_new (t.createNode (some it) (some cnt)).1 point t.size it hitem1 hdup1
  have h2n : ∀ m, (((t.createNode (some it) (some cnt)).1.nodeAdd point t.size).node m).parent
        = (if m = t.size then some point else (t.node m).parent) ∧
      (((t.createNode (some it) (some cnt)).1.nodeAdd point t.size).node m).children
        = (if m = point then (t.node point).children ++ [(it, t.size)]
           else if m = t.size then [] else (t.node m).children) := by
    intro m
    rw [h2]
    simp only [setNode_node, h1node]
    by_cases hm : m = t.size
    · have hmp : ¬ m = point := fun hc => hpn (hc ▸ hm)
      have hsp : ¬ t.size = point := fun hc => hpn hc.symm
      simp [hm, hmp, hsp]
    · by_cases hm2 : m = point
      · simp [hm, hm2, hpn]
      · simp [hm, hm2]
  have hres : (t.insertNewNode point it cnt).1
      = ((t.createNode (some it) (some cnt)).1.nodeAdd point t.size).updateRoute t.size := rfl
  constructor
  · intro m
    rw [hres, (updateRoute_pc _ t.size m).1]
    exact (h2n m).1
  · intro m
    rw [hres, (updateRoute_pc _ t.size m).2.1]
    exact (h2n m).2

theorem WF_congr_weak (t t' : FPTree) (hs : t'.size = t.size)
    (hi : ∀ m, (t'.node m).item = (t.node m).item)
    (hpar : ∀ m, (t'.node m).parent = (t.node m).parent)
    (hch : ∀ m, (t'.node m).children = (t.node m).children)
    (hcnt : ∀ m, ((t'.node m).count).isSome = ((t.node m).count).isSome)
    (h : WF t) : WF t' := by
  obtain ⟨h1, h2, h3, h4, h5, h6, h7⟩ := h
  refine ⟨by rw [hs]; exact h1, by rw [hi 0]; exact h2, ?_, by rw [hpar 0]; exact h4,
    ?_, ?_, ?_⟩
  · have := hcnt 0
    rw [h3] at this
    exact Option.not_isSome_iff_eq_none.mp (by rw [this]; exact Bool.false_ne_true)
  · intro n hn q hq
    rw [hs] at hn
    rw [hch n] at hq
    obtain ⟨ha, hb, hc⟩ := h5 n hn q hq
    exact ⟨ha, by rw [hs]; exact hb, by rw [hi q.2]; exact hc⟩
  · intro n hn hlt
    rw [hs] at hlt
    obtain ⟨⟨j, hj⟩, ⟨c, hc⟩, p, hp, hplt⟩ := h6 n hn hlt
    refine ⟨⟨j, by rw [hi n]; exact hj⟩, ?_, ⟨p, by rw [hpar n]; exact hp, hplt⟩⟩
    have := hcnt n
    rw [hc] at this
    cases hcc : (t'.node n).count with
    | none =>
      rw [hcc] at this
      cases this
    | some c2 => exact ⟨c2, rfl⟩
  · intro c hc hlt p hp
    rw [hs] at hlt
    rw [hpar c] at hp
    obtain ⟨q, hq, hq2⟩ := h7 c hc hlt p hp
    exact ⟨q, by rw [hch p]; exact hq, hq2⟩

theorem WF_empty : WF FPTree.empty := by
  have hs : FPTree.empty.size = 1 := rfl
  refine ⟨by rw [hs]; omega, rfl, rfl, rfl, ?_, ?_, ?_⟩
  · intro n _ q hq
    have hnil : (FPTree.empty.node n).children = [] := rfl
    rw [hnil] at hq
    cases hq
  · intro n hn hlt
    rw [hs] at hlt
    omega
  · intro c hc hlt
    rw [hs] at hlt
    omega

theorem WF_incAt (t : FPTree) (nid : Nat) (h : WF t) : WF (t.incAt nid) := by
  cases hc : (t.node nid).count with
  | none =>
    rw [incAt_none t nid hc]
    exact h
  | some c =>
    rw [incAt_some t nid c hc]
    refine WF_congr_weak t _ rfl ?_ ?_ ?_ ?_ h
    all_goals
      intro m
      simp only [setNode_node]
      by_cases hm : m = nid <;> simp [hm, hc]

theorem WF_bumpAt (t : FPTree) (nid k : Nat) (h : WF t) : WF (t.bumpAt nid k) := by
  unfold FPTree.bumpAt FPNode.addCount
  refine WF_congr_weak t _ rfl ?_ ?_ ?_ ?_ h
  all_goals
    intro m
    simp only [setNode_node]
    by_cases hm : m = nid <;> simp [hm]

theorem WF_insertNewNode (t : FPTree) (point it cnt : Nat) (hpoint : point < t.size)
    (hsearch : t.searchChild point it = none) (h : WF t) (hri : RouteInv t) :
    WF (t.insertNewNode point it cnt).1 := by
  obtain ⟨hstp, hstc⟩ := insertNewNode_struct t point it cnt hpoint hsearch
  have hdesc : (t.insertNewNode point it cnt).1.size = t.size + 1 ∧
      (∀ m, ((t.insertNewNode point it cnt).1.node m).item
        = if m = t.size then some it else (t.node m).item) ∧
      (∀ m, ((t.insertNewNode point it cnt).1.node m).count
        = if m = t.size then some cnt else (t.node m).count) := by
    cases hfind : t.routes.find? (fun q2 => q2.1 == it) with
    | none =>
      obtain ⟨_, hsize, _, hitem, _, hcount⟩ := insertNewNode_desc_none t point it cnt hfind
      exact ⟨hsize, hitem, hcount⟩
    | some q =>
      have hq := (hri.2 it).2.2 q hfind
      have htl_mem : q.2.2 ∈ itemIds t it :=
        List.mem_of_mem_getLast? (by rw [hq.2]; rfl)
      have htl : q.2.2 ≠ t.size :=
        Nat.ne_of_lt ((mem_itemIds t it q.2.2).mp htl_mem).1
      obtain ⟨_, hsize, _, hitem, _, hcount⟩ :=
        insertNewNode_desc_found t point it cnt q hfind htl
      exact ⟨hsize, hitem, hcount⟩
  obtain ⟨hsize, hitem, hcount⟩ := hdesc
  obtain ⟨h1, h2, h3, h4, h5, h6, h7⟩ := h
  have hz : (0 : Nat) ≠ t.size := Nat.ne_of_lt h1
  refine ⟨by omega, ?_, ?_, ?_, ?_, ?_, ?_⟩
  · rw [hitem 0, if_neg hz]
    exact h2
  · rw [hcount 0, if_neg hz]
    exact h3
  · rw [hstp 0, if_neg hz]
    exact h4
  · intro n hn q hq
    rw [hsize] at hn
    rw [hstc n] at hq
    by_cases hnp : n = point
    · rw [if_pos hnp] at hq
      rcases List.mem_append.mp hq with hq1 | hq2
      · obtain ⟨ha, hb, hc⟩ := h5 point hpoint q hq1
        refine ⟨ha, by omega, ?_⟩
        rw [hitem q.2, if_neg (Nat.ne_of_lt hb)]
        exact hc
      · rw [List.mem_singleton] at hq2
        subst hq2
        refine ⟨h1, by omega, ?_⟩
        rw [hitem t.size, if_pos rfl]
    · rw [if_neg hnp] at hq
      by_cases hns : n = t.size
      · rw [if_pos hns] at hq
        cases hq
      · rw [if_neg hns] at hq
        obtain ⟨ha, hb, hc⟩ := h5 n (by omega) q hq
        refine ⟨ha, by omega, ?_⟩
        rw [hitem q.2, if_neg (Nat.ne_of_lt hb)]
        exact hc
  · intro n hn hlt
    rw [hsize] at hlt
    by_cases hns : n = t.size
    · subst hns
      refine ⟨⟨it, by rw [hitem, if_pos rfl]⟩, ⟨cnt, by rw [hcount, if_pos rfl]⟩,
        ⟨point, by rw [hstp, if_pos rfl], hpoint⟩⟩
    · obtain ⟨⟨j, hj⟩, ⟨c, hc⟩, p, hp, hplt⟩ := h6 n hn (by omega)
      refine ⟨⟨j, by rw [hitem n, if_neg hns]; exact hj⟩,
        ⟨c, by rw [hcount n, if_neg hns]; exact hc⟩,
        ⟨p, by rw [hstp n, if_neg hns]; exact hp, hplt⟩⟩
  · intro c hc hlt p hp
    rw [hsize] at hlt
    rw [hstp c] at hp
    by_cases hcs : c = t.size
    · rw [if_pos hcs] at hp
      cases hp
      refine ⟨(it, t.size), ?_, hcs.symm⟩
      rw [hstc point, if_pos rfl]
      exact List.mem_append.mpr (Or.inr (List.mem_singleton.mpr rfl))
    · rw [if_neg hcs] at hp
      obtain ⟨q, hq, hq2⟩ := h7 c hc (by omega) p hp
      have hps : p ≠ t.size := by
        obtain ⟨_, _, p2, hp2, hplt2⟩ := h6 c hc (by omega)
        rw [hp] at hp2
        cases hp2
        omega
      refine ⟨q, ?_, hq2⟩
      rw [hstc p]
      by_cases hpp : p = point
      · rw [if_pos hpp]
        rw [hpp] at hq
        exact List.mem_append.mpr (Or.inl hq)
      · rw [if_neg hpp, if_neg hps]
        exact hq

/-! ## Conditional-tree count reconstruction (claim C5) -/


theorem chain'_pred {R : Nat → Nat → Prop} :
    ∀ (y : Nat) (ys : List Nat), List.Chain' R (y :: ys) → ∀ x ∈ ys, ∃ a, R a x := by
  intro y ys
  induction ys generalizing y with
  | nil =>
    intro _ x hx
    cases hx
  | cons b ys ih =>
    intro hch x hx
    cases hx with
    | head => exact ⟨y, (List.chain'_cons.mp hch).1⟩
    | tail _ hx2 => exact ih b (List.chain'_cons.mp hch).2 x hx2

theorem insertNewNode_basic (t : FPTree) (point it cnt : Nat) (hri : RouteInv t) :
    (t.insertNewNode point it cnt).1.size = t.size + 1 ∧
    (∀ m, ((t.insertNewNode point it cnt).1.node m).item
      = if m = t.size then some it else (t.node m).item) ∧
    (∀ m, ((t.insertNewNode point it cnt).1.node m).count
      = if m = t.size then some cnt else (t.node m).count) := by
  cases hfind : t.routes.find? (fun q2 => q2.1 == it) with
  | none =>
    obtain ⟨_, hsize, _, hitem, _, hcount⟩ := insertNewNode_desc_none t point it cnt hfind
    exact ⟨hsize, hitem, hcount⟩
  | some q =>
    have hq := (hri.2 it).2.2 q hfind
    have htl_mem : q.2.2 ∈ itemIds t it :=
      List.mem_of_mem_getLast? (by rw [hq.2]; rfl)
    have htl : q.2.2 ≠ t.size :=
      Nat.ne_of_lt ((mem_itemIds t it q.2.2).mp htl_mem).1
    obtain ⟨_, hsize, _, hitem, _, hcount⟩ :=
      insertNewNode_desc_found t point it cnt q hfind htl
    exact ⟨hsize, hitem, hcount⟩

theorem searchChild_spec (t : FPTree) (point it np : Nat)
    (hs : t.searchChild point it = some np) :
    ∃ q ∈ (t.node point).children, q.2 = np ∧ q.1 = it := by
  unfold FPTree.searchChild at hs
  cases hf : (t.node point).children.find? (fun q => q.1 == it) with
  | none =>
    rw [hf] at hs
    cases hs
  | some q =>
    rw [hf] at hs
    refine ⟨q, List.mem_of_find?_eq_some hf, ?_, ?_⟩
    · cases hs
      rfl
    · have := List.find?_some hf
      simpa using this

theorem importStep_fold (ci : Nat) :
    ∀ (elems : List (Nat × Nat)) (t : FPTree) (point : Nat),
    ImportInv ci t → point < t.size →
    (elems ≠ [] → (t.node point).item ≠ some ci) →
    (∀ q ∈ elems.dropLast, q.1 ≠ ci) →
    ImportInv ci (elems.foldl (importStep ci) (t, point)).1 := by
  intro elems
  induction elems with
  | nil =>
    intro t point h _ _ _
    exact h
  | cons e rest ih =>
    intro t point h hpoint hpci hdl
    obtain ⟨hwf, hri, hzero, hleaf⟩ := h
    have hene : (e :: rest) ≠ [] := by simp
    have heci : rest ≠ [] → e.1 ≠ ci := by
      intro hr
      apply hdl e
      cases rest with
      | nil => exact absurd rfl hr
      | cons r rs => exact List.mem_cons_self e _
    have hdl2 : ∀ q ∈ rest.dropLast, q.1 ≠ ci := by
      intro q hq
      apply hdl q
      cases rest with
      | nil => cases hq
      | cons r rs =>
        show q ∈ (e :: r :: rs).dropLast
        have : (e :: r :: rs).dropLast = e :: (r :: rs).dropLast := rfl
        rw [this]
        exact List.mem_cons_of_mem e hq
    show ImportInv ci (rest.foldl (importStep ci) (importStep ci (t, point) e)).1
    cases hs : t.searchChild point e.1 with
    | some np =>
      have hstep : importStep ci (t, point) e = (t, np) := by
        unfold importStep
        rw [hs]
      rw [hstep]
      obtain ⟨q, hqmem, hq2, hq1⟩ := searchChild_spec t point e.1 np hs
      obtain ⟨_, hnp, hnpitem⟩ := hwf.2.2.2.2.1 point hpoint q hqmem
      refine ih t np ⟨hwf, hri, hzero, hleaf⟩ (hq2 ▸ hnp) ?_ hdl2
      intro hr hcontra
      rw [hq2, hq1] at hnpitem
      rw [hnpitem] at hcontra
      exact heci hr (Option.some.inj hcontra)
    | none =>
      have hstep : importStep ci (t, point) e
          = t.insertNewNode point e.1 (if e.1 == ci then e.2 else 0) := by
        unfold importStep
        rw [hs]
      rw [hstep]
      obtain ⟨hsize, hitem, hcount⟩ :=
        insertNewNode_basic t point e.1 (if e.1 == ci then e.2 else 0) hri
      obtain ⟨hstp, hstc⟩ := insertNewNode_struct t point e.1 (if e.1 == ci then e.2 else 0)
        hpoint hs
      have hwf' := WF_insertNewNode t point e.1 (if e.1 == ci then e.2 else 0)
        hpoint hs hwf hri
      have hri' := RouteInv_insertNewNode t point e.1 (if e.1 == ci then e.2 else 0) hri
      have hsnd : (t.insertNewNode point e.1 (if e.1 == ci then e.2 else 0)).2 = t.size := rfl
      have hzero' : ∀ n, 0 < n → n < (t.insertNewNode point e.1
          (if e.1 == ci then e.2 else 0)).1.size →
          ((t.insertNewNode point e.1 (if e.1 == ci then e.2 else 0)).1.node n).item ≠ some ci →
          ((t.insertNewNode point e.1 (if e.1 == ci then e.2 else 0)).1.node n).count
            = some 0 := by
        intro n hn0 hnlt hnci
        rw [hsize] at hnlt
        rw [hitem n] at hnci
        rw [hcount n]
        by_cases hns : n = t.size
        · rw [if_pos hns]
          rw [if_pos hns] at hnci
          have : (e.1 == ci) = false := by
            simp
            intro hc
            exact hnci (by rw [hc])
          rw [this]
          rfl
        · rw [if_neg hns]
          rw [if_neg hns] at hnci
          exact hzero n hn0 (by omega) hnci
      have hleaf' : ∀ n, n < (t.insertNewNode point e.1
          (if e.1 == ci then e.2 else 0)).1.size →
          ((t.insertNewNode point e.1 (if e.1 == ci then e.2 else 0)).1.node n).item = some ci →
          ((t.insertNewNode point e.1 (if e.1 == ci then e.2 else 0)).1.node n).children
            = [] := by
        intro n hnlt hnci
        rw [hsize] at hnlt
        rw [hitem n] at hnci
        rw [hstc n]
        by_cases hns : n = t.size
        · have hnp : ¬ n = point := fun hc => Nat.ne_of_lt hpoint (hc ▸ hns)
          rw [if_neg hnp, if_pos hns]
        · rw [if_neg hns] at hnci
          by_cases hnp : n = point
          · subst hnp
            exact absurd hnci (hpci hene)
          · rw [if_neg hnp, if_neg hns]
            exact hleaf n (by omega) hnci
      refine ih (t.insertNewNode point e.1 (if e.1 == ci then e.2 else 0)).1
        (t.insertNewNode point e.1 (if e.1 == ci then e.2 else 0)).2
        ⟨hwf', hri', hzero', hleaf'⟩ ?_ ?_ hdl2
      · rw [hsnd, hsize]
        omega
      · intro hr hcontra
        rw [hsnd] at hcontra
        rw [hitem t.size, if_pos rfl] at hcontra
        exact heci hr (Option.some.inj hcontra)

theorem ImportInv_importPath (ci : Nat) (t : FPTree) (path : List (Nat × Nat))
    (h : ImportInv ci t) (hdl : ∀ q ∈ path.dropLast, q.1 ≠ ci) :
    ImportInv ci (importPath ci t path) := by
  unfold importPath
  refine importStep_fold ci path t 0 h h.1.1 ?_ hdl
  intro _ hcontra
  rw [h.1.2.1] at hcontra
  cases hcontra

theorem ImportInv_empty (ci : Nat) : ImportInv ci FPTree.empty := by
  have hs : FPTree.empty.size = 1 := rfl
  refine ⟨WF_empty, RouteInv_empty, ?_, ?_⟩
  · intro n hn0 hnlt _
    rw [hs] at hnlt
    omega
  · intro n hnlt hni
    rw [hs] at hnlt
    have hn0 : n = 0 := by omega
    subst hn0
    rw [(rfl : (FPTree.empty.node 0).item = none)] at hni
    cases hni

theorem ImportInv_foldPaths (ci : Nat) :
    ∀ (paths : List (List (Nat × Nat))), (∀ p ∈ paths, ∀ q ∈ p.dropLast, q.1 ≠ ci) →
    ∀ t, ImportInv ci t → ImportInv ci (paths.foldl (importPath ci) t) := by
  intro paths
  induction paths with
  | nil =>
    intro _ t h
    exact h
  | cons p ps ih =>
    intro hdl t h
    exact ih (fun p2 hp2 q hq => hdl p2 (List.mem_cons_of_mem p hp2) q hq)
      _ (ImportInv_importPath ci t p h (hdl p (List.mem_cons_self p ps)))

theorem chain'_pred_mem {R : Nat → Nat → Prop} :
    ∀ (y : Nat) (ys : List Nat), List.Chain' R (y :: ys) → ∀ x ∈ ys, ∃ a ∈ y :: ys, R a x := by
  intro y ys
  induction ys generalizing y with
  | nil =>
    intro _ x hx
    cases hx
  | cons b ys ih =>
    intro hch x hx
    cases hx with
    | head => exact ⟨y, List.mem_cons_self y _, (List.chain'_cons.mp hch).1⟩
    | tail _ hx2 =>
      obtain ⟨a, ha, har⟩ := ih b (List.chain'_cons.mp hch).2 x hx2
      exact ⟨a, List.mem_cons_of_mem y ha, har⟩

/-- In an import tree, no strict ancestor of any node carries the
condition item (condition nodes are leaves). -/
theorem noCiAnc (ci : Nat) (t : FPTree) (h : ImportInv ci t) :
    ∀ m, 0 < m → m < t.size → ∀ x ∈ t.ancestorIds t.size m,
    (t.node x).item ≠ some ci := by
  intro m hm0 hmlt x hx
  obtain ⟨l, ha, hu, hb, hch, hdec⟩ := ancestorIds_spec t h.1 m hm0 hmlt t.size hmlt
  rw [ha] at hx
  obtain ⟨a, hamem, hapar⟩ := chain'_pred_mem m (l ++ [0]) hch x hx
  have ha0 : a ≠ 0 := by
    intro hc
    subst hc
    rw [h.1.2.2.2.1] at hapar
    cases hapar
  have habounds : 0 < a ∧ a < t.size := by
    cases hamem with
    | head => exact ⟨hm0, hmlt⟩
    | tail _ h2 =>
      rcases List.mem_append.mp h2 with h3 | h3
      · exact hb a h3
      · rw [List.mem_singleton] at h3
        exact absurd h3 ha0
  obtain ⟨q, hq, _⟩ := h.1.2.2.2.2.2.2 a habounds.1 habounds.2 x hapar
  intro hci
  have hxlt : x < t.size := by
    rcases List.mem_append.mp hx with h3 | h3
    · exact (hb x h3).2
    · rw [List.mem_singleton] at h3
      subst h3
      exact h.1.1
  have := h.2.2.2 x hxlt hci
  rw [this] at hq
  cases hq


theorem CountOnly_refl (t : FPTree) : CountOnly t t :=
  ⟨rfl, rfl, fun _ => ⟨rfl, rfl, rfl, rfl, rfl⟩⟩

theorem CountOnly_trans {t1 t2 t3 : FPTree} (h1 : CountOnly t1 t2) (h2 : CountOnly t2 t3) :
    CountOnly t1 t3 := by
  obtain ⟨a1, b1, c1⟩ := h1
  obtain ⟨a2, b2, c2⟩ := h2
  refine ⟨a2.trans a1, b2.trans b1, fun m => ?_⟩
  obtain ⟨x1, y1, z1, w1, v1⟩ := c1 m
  obtain ⟨x2, y2, z2, w2, v2⟩ := c2 m
  exact ⟨x2.trans x1, y2.trans y1, z2.trans z1, w2.trans w1, v2.trans v1⟩

theorem CountOnly_bumpAt (t : FPTree) (nid k : Nat) : CountOnly t (t.bumpAt nid k) := by
  unfold FPTree.bumpAt FPNode.addCount
  refine ⟨rfl, rfl, fun m => ?_⟩
  simp only [setNode_node]
  by_cases hm : m = nid
  · subst hm
    refine ⟨by simp, by simp, by simp, by simp, ?_⟩
    simp only [if_pos rfl]
    cases (t.node m).count <;> rfl
  · simp [hm]

theorem CountOnly_foldBump (L : List Nat) (k : Nat) :
    ∀ t, CountOnly t (L.foldl (fun t2 nid => t2.bumpAt nid k) t) := by
  induction L with
  | nil =>
    intro t
    exact CountOnly_refl t
  | cons a L ih =>
    intro t
    exact CountOnly_trans (CountOnly_bumpAt t a k) (ih (t.bumpAt a k))

theorem CountOnly_bumpLeafPath (t : FPTree) (path : List Nat) :
    CountOnly t (bumpLeafPath t path) := by
  unfold bumpLeafPath
  cases path.getLast? with
  | none => exact CountOnly_refl t
  | some leaf => exact CountOnly_foldBump _ _ t

theorem isRoot_congr (t t' : FPTree) (h : CountOnly t t') (m : Nat) :
    (t'.node m).isRoot = (t.node m).isRoot := by
  unfold FPNode.isRoot
  obtain ⟨hi, _, _, _, hc⟩ := h.2.2 m
  rw [hi]
  have : ((t'.node m).count).isNone = ((t.node m).count).isNone := by
    cases hc1 : (t'.node m).count <;> cases hc2 : (t.node m).count <;>
      rw [hc1, hc2] at hc <;> first | rfl | cases hc
  rw [this]

theorem upPath_congr (t t' : FPTree) (h : CountOnly t t') :
    ∀ fuel o, t'.upPath fuel o = t.upPath fuel o := by
  intro fuel
  induction fuel with
  | zero =>
    intro o
    rfl
  | succ f ih =>
    intro o
    cases o with
    | none => rfl
    | some nid =>
      show (if (t'.node nid).isRoot then [] else nid :: t'.upPath f (t'.node nid).parent)
        = (if (t.node nid).isRoot then [] else nid :: t.upPath f (t.node nid).parent)
      rw [isRoot_congr t t' h nid, (h.2.2 nid).2.1, ih]

theorem foldl_bumpAt_count (k : Nat) :
    ∀ (L : List Nat) (t : FPTree) (n : Nat), L.Nodup →
    ((L.foldl (fun t2 nid => t2.bumpAt nid k) t).node n).count
      = if n ∈ L then ((t.node n).count).map (fun c => c + k) else (t.node n).count := by
  intro L
  induction L with
  | nil =>
    intro t n _
    simp
  | cons a L ih =>
    intro t n hnd
    show ((L.foldl (fun t2 nid => t2.bumpAt nid k) (t.bumpAt a k)).node n).count = _
    rw [ih (t.bumpAt a k) n (List.nodup_cons.mp hnd).2]
    have hb : ((t.bumpAt a k).node n).count
        = if n = a then ((t.node n).count).map (fun c => c + k) else (t.node n).count := by
      unfold FPTree.bumpAt FPNode.addCount
      simp only [setNode_node]
      by_cases hn : n = a <;> simp [hn]
    by_cases hna : n = a
    · have hnL : n ∉ L := by
        rw [hna]
        exact (List.nodup_cons.mp hnd).1
      rw [if_neg hnL, hb, if_pos hna, if_pos (by rw [hna]; exact List.mem_cons_self a L)]
    · rw [hb, if_neg hna]
      by_cases hnL : n ∈ L
      · rw [if_pos hnL, if_pos (List.mem_cons_of_mem a hnL)]
      · rw [if_neg hnL, if_neg (by intro hc; cases hc with
          | head => exact hna rfl
          | tail _ h2 => exact hnL h2)]

theorem reverse_dropLast (l : List Nat) : l.reverse.dropLast = l.tail.reverse := by
  cases l with
  | nil => rfl
  | cons a l2 => simp [List.reverse_cons, List.dropLast_concat]


theorem bump_step (ci : Nat) (T : FPTree) (h : ImportInv ci T) (m : Nat)
    (hm : m < T.size) (hmi : (T.node m).item = some ci) (Q : List Nat) (t0 : FPTree)
    (hrel : BumpRel ci T Q t0) :
    BumpRel ci T (Q ++ [m]) (bumpLeafPath t0 (t0.collectPath m)) := by
  have hm0 : 0 < m := by
    rcases Nat.eq_zero_or_pos m with h0 | h0
    · subst h0
      rw [h.1.2.1] at hmi
      cases hmi
    · exact h0
  obtain ⟨l, ha, hu, hb, hch, hdec⟩ := ancestorIds_spec T h.1 m hm0 hm T.size hm
  have hsize0 : t0.size = T.size := hrel.1.1
  have hcp : t0.collectPath m = (m :: l).reverse := by
    unfold FPTree.collectPath
    rw [hsize0, upPath_congr T t0 hrel.1, hu]
  have hlast2 : ((m :: l).reverse).getLast? = some m := by
    rw [List.getLast?_reverse]
    rfl
  have htargets : (((m :: l).reverse).dropLast).reverse = l := by
    rw [reverse_dropLast, List.reverse_reverse]
    rfl
  have hbump : bumpLeafPath t0 (t0.collectPath m)
      = l.foldl (fun t2 nid => t2.bumpAt nid ((t0.node m).count.getD 0)) t0 := by
    rw [hcp]
    unfold bumpLeafPath
    rw [hlast2, htargets]
  have hk : (t0.node m).count = (T.node m).count := hrel.2.1 m hm hmi
  have hnd : l.Nodup := by
    haveI : IsTrans Nat (fun a b => b < a) := ⟨fun a b c h1 h2 => Nat.lt_trans h2 h1⟩
    have hpw := List.chain'_iff_pairwise.mp hdec
    have hpl : l.Pairwise (fun a b => b < a) := (List.pairwise_cons.mp hpw).2
    exact hpl.imp (fun hlt => Nat.ne_of_gt hlt)
  have hnotl : ∀ m2, (T.node m2).item = some ci → m2 ∉ l := by
    intro m2 hmi2 hc
    exact noCiAnc ci T h m hm0 hm m2
      (by rw [ha]; exact List.mem_append.mpr (Or.inl hc)) hmi2
  have htail : (T.upPath T.size (some m)).tail = l := by
    rw [hu]
    rfl
  refine ⟨?_, ?_, ?_⟩
  · exact CountOnly_trans hrel.1 (CountOnly_bumpLeafPath t0 (t0.collectPath m))
  · intro m2 hm2 hmi2
    rw [hbump, foldl_bumpAt_count _ l t0 m2 hnd, if_neg (hnotl m2 hmi2)]
    exact hrel.2.1 m2 hm2 hmi2
  · intro n hn0 hnlt hnci
    rw [hbump, foldl_bumpAt_count _ l t0 n hnd, hrel.2.2 n hn0 hnlt hnci]
    have hsingle : [m].filter
        (fun m2 => decide (n ∈ (T.upPath T.size (some m2)).tail))
        = if n ∈ l then [m] else [] := by
      by_cases hnl : n ∈ l
      · rw [if_pos hnl]
        rw [List.filter_cons]
        rw [if_pos (by rw [htail]; exact decide_eq_true hnl)]
        rfl
      · rw [if_neg hnl]
        rw [List.filter_cons]
        rw [if_neg (by rw [htail]; simpa using hnl)]
        rfl
    rw [List.filter_append, hsingle]
    by_cases hnl : n ∈ l
    · rw [if_pos hnl, if_pos hnl]
      rw [List.map_append, List.sum_append]
      simp [hk]
    · rw [if_neg hnl, if_neg hnl]
      simp

theorem bump_fold (ci : Nat) (T : FPTree) (h : ImportInv ci T) :
    ∀ (P Q : List Nat) (t0 : FPTree),
    (∀ m ∈ P, m < T.size ∧ (T.node m).item = some ci) →
    BumpRel ci T Q t0 →
    BumpRel ci T (Q ++ P) (P.foldl (fun t2 m => bumpLeafPath t2 (t2.collectPath m)) t0) := by
  intro P
  induction P with
  | nil =>
    intro Q t0 _ hrel
    rw [List.append_nil]
    exact hrel
  | cons m P ih =>
    intro Q t0 hP hrel
    have hmm := hP m (List.mem_cons_self m P)
    have h1 := bump_step ci T h m hmm.1 hmm.2 Q t0 hrel
    have h2 := ih (Q ++ [m]) _ (fun m2 hm2 => hP m2 (List.mem_cons_of_mem m hm2)) h1
    rw [List.append_assoc] at h2
    exact h2

/-- C5: after `conditional_tree_from_paths` returns, every node of the new
tree that does not carry the condition item has a count equal to the sum
of the counts of the condition-item nodes lying below it (those whose
strict-ancestor chain contains the node): each condition-item node's count
has been added into every strict ancestor on its path, and shared
ancestors accumulate every contribution. -/
theorem C5_conditional_counts (paths : List (List (Nat × Nat))) (ci : Nat)
    (hne : paths ≠ [])
    (hlast : ∀ p ∈ paths, ∃ c, p.getLast? = some (ci, c))
    (hmid : ∀ p ∈ paths, ∀ q ∈ p.dropLast, q.1 ≠ ci)
    (n j : Nat) (hn : n < (condTreeOr paths).size)
    (hitem : ((condTreeOr paths).node n).item = some j) (hj : j ≠ ci) :
    ((condTreeOr paths).node n).count
      = some ((((itemIds (condTreeOr paths) ci).filter
          (fun m => decide (n ∈ (condTreeOr paths).ancestorIds (condTreeOr paths).size m))).map
          (fun m => ((condTreeOr paths).node m).count.getD 0)).sum) := by
  cases paths with
  | nil => exact absurd rfl hne
  | cons p0 rest =>
    obtain ⟨c0, hgl⟩ := hlast p0 (List.mem_cons_self p0 rest)
    have hsc : ((p0 :: rest).head?.bind (fun p => p.getLast?)) = some (ci, c0) := by
      show p0.getLast? = some (ci, c0)
      exact hgl
    have hok : condTreeOr (p0 :: rest)
        = bumpCounts ((p0 :: rest).foldl (importPath ci) FPTree.empty) ci := by
      unfold condTreeOr conditional_tree_from_paths
      rw [hsc]
    have hImp : ImportInv ci ((p0 :: rest).foldl (importPath ci) FPTree.empty) :=
      ImportInv_foldPaths ci (p0 :: rest) hmid FPTree.empty (ImportInv_empty ci)
    have ht' : condTreeOr (p0 :: rest)
        = (itemIds ((p0 :: rest).foldl (importPath ci) FPTree.empty) ci).foldl
            (fun t2 m => bumpLeafPath t2 (t2.collectPath m))
            ((p0 :: rest).foldl (importPath ci) FPTree.empty) := by
      rw [hok]
      unfold bumpCounts
      rw [nodesList_eq_itemIds _ hImp.2.1 ci]
    have hrel0 : BumpRel ci ((p0 :: rest).foldl (importPath ci) FPTree.empty) []
        ((p0 :: rest).foldl (importPath ci) FPTree.empty) := by
      refine ⟨CountOnly_refl _, fun m _ _ => rfl, fun n2 hn0 hnlt hnc => ?_⟩
      rw [hImp.2.2.1 n2 hn0 hnlt hnc]
      rfl
    have hrelF := bump_fold ci ((p0 :: rest).foldl (importPath ci) FPTree.empty) hImp
      (itemIds ((p0 :: rest).foldl (importPath ci) FPTree.empty) ci) []
      ((p0 :: rest).foldl (importPath ci) FPTree.empty)
      (fun m hm => (mem_itemIds _ ci m).mp hm) hrel0
    rw [List.nil_append] at hrelF
    rw [← ht'] at hrelF
    have hco := hrelF.1
    have hsize' : (condTreeOr (p0 :: rest)).size
        = ((p0 :: rest).foldl (importPath ci) FPTree.empty).size := hco.1
    have hitemc : ∀ m, ((condTreeOr (p0 :: rest)).node m).item
        = (((p0 :: rest).foldl (importPath ci) FPTree.empty).node m).item :=
      fun m => (hco.2.2 m).1
    have hitemT : (((p0 :: rest).foldl (importPath ci) FPTree.empty).node n).item = some j := by
      rw [← hitemc n]
      exact hitem
    have hn0 : 0 < n := by
      rcases Nat.eq_zero_or_pos n with h0 | h0
      · subst h0
        rw [hImp.1.2.1] at hitemT
        cases hitemT
      · exact h0
    have hnlt : n < ((p0 :: rest).foldl (importPath ci) FPTree.empty).size := by
      rw [← hsize']
      exact hn
    have hnci : (((p0 :: rest).foldl (importPath ci) FPTree.empty).node n).item ≠ some ci := by
      rw [hitemT]
      intro hc
      exact hj (Option.some.inj hc)
    have hcnt := hrelF.2.2 n hn0 hnlt hnci
    have hids : itemIds (condTreeOr (p0 :: rest)) ci
        = itemIds ((p0 :: rest).foldl (importPath ci) FPTree.empty) ci :=
      itemIds_congr _ _ hsize' hitemc ci
    have hanc : ∀ m, (condTreeOr (p0 :: rest)).ancestorIds (condTreeOr (p0 :: rest)).size m
        = ((p0 :: rest).foldl (importPath ci) FPTree.empty).ancestorIds
            ((p0 :: rest).foldl (importPath ci) FPTree.empty).size m := by
      intro m
      rw [hsize']
      exact ancestorIds_congr _ _ (fun m2 => (hco.2.2 m2).2.1) _ m
    have hfilt : (itemIds ((p0 :: rest).foldl (importPath ci) FPTree.empty) ci).filter
          (fun m => decide (n ∈ (condTreeOr (p0 :: rest)).ancestorIds
            (condTreeOr (p0 :: rest)).size m))
        = (itemIds ((p0 :: rest).foldl (importPath ci) FPTree.empty) ci).filter
          (fun m => decide (n ∈ (((p0 :: rest).foldl (importPath ci)
            FPTree.empty).upPath ((p0 :: rest).foldl (importPath ci) FPTree.empty).size
            (some m)).tail)) := by
      apply List.filter_congr
      intro m hm
      obtain ⟨hmlt, hmi⟩ := (mem_itemIds _ ci m).mp hm
      have hm0 : 0 < m := by
        rcases Nat.eq_zero_or_pos m with h0 | h0
        · subst h0
          rw [hImp.1.2.1] at hmi
          cases hmi
        · exact h0
      obtain ⟨l, ha, hu, hb, hch, hdec⟩ :=
        ancestorIds_spec _ hImp.1 m hm0 hmlt _ hmlt
      rw [hanc m, ha, hu]
      apply decide_eq_decide.mpr
      constructor
      · intro hmem
        rcases List.mem_append.mp hmem with h3 | h3
        · exact h3
        · rw [List.mem_singleton] at h3
          omega
      · intro hmem
        exact List.mem_append.mpr (Or.inl hmem)
    have hmap : ((itemIds ((p0 :: rest).foldl (importPath ci) FPTree.empty) ci).filter
          (fun m => decide (n ∈ (((p0 :: rest).foldl (importPath ci)
            FPTree.empty).upPath ((p0 :: rest).foldl (importPath ci) FPTree.empty).size
            (some m)).tail))).map
          (fun m => ((condTreeOr (p0 :: rest)).node m).count.getD 0)
        = ((itemIds ((p0 :: rest).foldl (importPath ci) FPTree.empty) ci).filter
          (fun m => decide (n ∈ (((p0 :: rest).foldl (importPath ci)
            FPTree.empty).upPath ((p0 :: rest).foldl (importPath ci) FPTree.empty).size
            (some m)).tail))).map
          (fun m => ((((p0 :: rest).foldl (importPath ci) FPTree.empty).node m).count).getD 0) := by
      apply List.map_congr_left
      intro m hm
      have hm2 := List.mem_filter.mp hm
      obtain ⟨hmlt, hmi⟩ := (mem_itemIds _ ci m).mp hm2.1
      rw [hrelF.2.1 m hmlt hmi]
    rw [hcnt, hids, hfilt, hmap]

theorem C5_conditional_counts_witness :
    ((condTreeOr [[(5, 0), (7, 3)], [(5, 0), (9, 1), (7, 2)], [(7, 4)]]).node 1).count
      = some ((((itemIds (condTreeOr [[(5, 0), (7, 3)], [(5, 0), (9, 1), (7, 2)], [(7, 4)]]) 7).filter
          (fun m => decide (1 ∈ (condTreeOr [[(5, 0), (7, 3)], [(5, 0), (9, 1), (7, 2)], [(7, 4)]]).ancestorIds
            (condTreeOr [[(5, 0), (7, 3)], [(5, 0), (9, 1), (7, 2)], [(7, 4)]]).size m))).map
          (fun m => ((condTreeOr [[(5, 0), (7, 3)], [(5, 0), (9, 1), (7, 2)], [(7, 4)]]).node m).count.getD 0)).sum) := by
  refine C5_conditional_counts [[(5, 0), (7, 3)], [(5, 0), (9, 1), (7, 2)], [(7, 4)]] 7
    (by decide) ?_ (by decide) 1 5 (by decide) (by decide) (by decide)
  intro p hp
  cases hp with
  | head => exact ⟨3, rfl⟩
  | tail _ hp2 =>
    cases hp2 with
    | head => exact ⟨2, rfl⟩
    | tail _ hp3 =>
      cases hp3 with
      | head => exact ⟨4, rfl⟩
      | tail _ hp4 => cases hp4

/-! ## No-duplicate mining output (claim C6)

Transactions extracted from a data frame are sublists of the (distinct)
column list, so all tree paths are ascending in column order; every
emission of `find_with_suffix` is then a strictly ascending item list,
and distinct ascending lists have distinct underlying sets. -/


theorem OrdTree_congr (rho : Nat → Nat) (t t' : FPTree) (hs : t'.size = t.size)
    (hi : ∀ m, (t'.node m).item = (t.node m).item)
    (hp : ∀ m, (t'.node m).parent = (t.node m).parent) (h : OrdTree rho t) :
    OrdTree rho t' := by
  intro c hc0 hclt p hpar hp0 jp jc hjp hjc
  rw [hs] at hclt
  rw [hp c] at hpar
  rw [hi p] at hjp
  rw [hi c] at hjc
  exact h c hc0 hclt p hpar hp0 jp jc hjp hjc

theorem ItemsBound_congr (rho : Nat → Nat) (bound : Nat) (t t' : FPTree)
    (hs : t'.size = t.size) (hi : ∀ m, (t'.node m).item = (t.node m).item)
    (h : ItemsBound rho bound t) : ItemsBound rho bound t' := by
  intro n hn0 hnlt jn hjn
  rw [hs] at hnlt
  rw [hi n] at hjn
  exact h n hn0 hnlt jn hjn

theorem OrdTree_insertNewNode (rho : Nat → Nat) (t : FPTree) (point it cnt : Nat)
    (hpoint : point < t.size) (hsearch : t.searchChild point it = none)
    (hri : RouteInv t) (hwf : WF t)
    (hedge : ∀ jp, (t.node point).item = some jp → rho jp < rho it)
    (h : OrdTree rho t) : OrdTree rho (t.insertNewNode point it cnt).1 := by
  obtain ⟨hsize, hitem, _⟩ := insertNewNode_basic t point it cnt hri
  obtain ⟨hstp, _⟩ := insertNewNode_struct t point it cnt hpoint hsearch
  intro c hc0 hclt p hpar hp0 jp jc hjp hjc
  rw [hsize] at hclt
  rw [hstp c] at hpar
  rw [hitem p] at hjp
  rw [hitem c] at hjc
  by_cases hcs : c = t.size
  · rw [if_pos hcs] at hpar hjc
    cases hpar
    rw [if_neg (Nat.ne_of_lt hpoint)] at hjp
    have := hedge jp hjp
    rw [Option.some.inj hjc] at this
    exact this
  · rw [if_neg hcs] at hpar hjc
    obtain ⟨_, _, p2, hp2, hplt2⟩ := hwf.2.2.2.2.2.1 c hc0 (by omega)
    rw [hpar] at hp2
    cases hp2
    have hps : p ≠ t.size := by omega
    rw [if_neg hps] at hjp
    exact h c hc0 (by omega) p hpar hp0 jp jc hjp hjc

theorem ItemsBound_insertNewNode (rho : Nat → Nat) (bound : Nat) (t : FPTree)
    (point it cnt : Nat) (hri : RouteInv t)
    (hit : rho it < rho bound ∨ it = bound)
    (h : ItemsBound rho bound t) : ItemsBound rho bound (t.insertNewNode point it cnt).1 := by
  obtain ⟨hsize, hitem, _⟩ := insertNewNode_basic t point it cnt hri
  intro n hn0 hnlt jn hjn
  rw [hsize] at hnlt
  rw [hitem n] at hjn
  by_cases hns : n = t.size
  · rw [if_pos hns] at hjn
    cases hjn
    exact hit
  · rw [if_neg hns] at hjn
    exact h n hn0 (by omega) jn hjn

theorem ordWalk_add (rho : Nat → Nat) :
    ∀ (tr : List Nat) (t : FPTree) (point : Nat),
    WF t → RouteInv t → OrdTree rho t → point < t.size →
    (point = 0 ∨ ∃ jp, (t.node point).item = some jp ∧ ∀ x ∈ tr, rho jp < rho x) →
    tr.Pairwise (fun a b => rho a < rho b) →
    WF (tr.foldl FPTree.addStep (t, point)).1 ∧
      RouteInv (tr.foldl FPTree.addStep (t, point)).1 ∧
      OrdTree rho (tr.foldl FPTree.addStep (t, point)).1 := by
  intro tr
  induction tr with
  | nil =>
    intro t point hwf hri hord _ _ _
    exact ⟨hwf, hri, hord⟩
  | cons e rest ih =>
    intro t point hwf hri hord hpoint hpt hpw
    rw [List.foldl_cons]
    cases hs : t.searchChild point e with
    | some np =>
      have hstep : FPTree.addStep (t, point) e = (t.incAt np, np) := by
        unfold FPTree.addStep
        rw [hs]
      rw [hstep]
      obtain ⟨q, hqmem, hq2, hq1⟩ := searchChild_spec t point e np hs
      obtain ⟨hqpos, hqlt, hqitem⟩ := hwf.2.2.2.2.1 point hpoint q hqmem
      obtain ⟨h1, h2, h3⟩ := incAt_view t np
      refine ih (t.incAt np) np (WF_incAt t np hwf)
        (RouteInv_congr t _ h1 h2 (fun m => (h3 m).1) (fun m => (h3 m).2.1) hri)
        (OrdTree_congr rho t _ h1 (fun m => (h3 m).1) (fun m => (h3 m).2.2.1) hord)
        (by rw [h1]; omega) ?_ ((List.pairwise_cons.mp hpw).2)
      right
      refine ⟨e, ?_, (List.pairwise_cons.mp hpw).1⟩
      rw [(h3 np).1, ← hq2, hqitem, hq1]
    | none =>
      have hstep : FPTree.addStep (t, point) e = t.insertNewNode point e 1 := by
        unfold FPTree.addStep
        rw [hs]
      rw [hstep]
      have hedge : ∀ jp, (t.node point).item = some jp → rho jp < rho e := by
        intro jp hjp
        cases hpt with
        | inl h0 =>
          rw [h0, hwf.2.1] at hjp
          cases hjp
        | inr h1 =>
          obtain ⟨jp2, hjp2, hlt⟩ := h1
          rw [hjp2] at hjp
          cases hjp
          exact hlt e (List.mem_cons_self e rest)
      obtain ⟨hsize, hitem, _⟩ := insertNewNode_basic t point e 1 hri
      have hsnd : (t.insertNewNode point e 1).2 = t.size := rfl
      refine ih (t.insertNewNode point e 1).1 (t.insertNewNode point e 1).2
        (WF_insertNewNode t point e 1 hpoint hs hwf hri)
        (RouteInv_insertNewNode t point e 1 hri)
        (OrdTree_insertNewNode rho t point e 1 hpoint hs hri hwf hedge hord)
        (by rw [hsnd, hsize]; omega) ?_ ((List.pairwise_cons.mp hpw).2)
      right
      refine ⟨e, ?_, (List.pairwise_cons.mp hpw).1⟩
      rw [hsnd, hitem t.size, if_pos rfl]

theorem OrdTree_empty (rho : Nat → Nat) : OrdTree rho FPTree.empty := by
  intro c hc0 hclt
  have hs : FPTree.empty.size = 1 := rfl
  rw [hs] at hclt
  omega

theorem ItemsBound_empty (rho : Nat → Nat) (bound : Nat) :
    ItemsBound rho bound FPTree.empty := by
  intro n hn0 hnlt
  have hs : FPTree.empty.size = 1 := rfl
  rw [hs] at hnlt
  omega

theorem ordBuild (rho : Nat → Nat) :
    ∀ (ts : List (List Nat)) (t : FPTree),
    WF t → RouteInv t → OrdTree rho t →
    (∀ tr ∈ ts, tr.Pairwise (fun a b => rho a < rho b)) →
    WF (ts.foldl FPTree.add t) ∧ RouteInv (ts.foldl FPTree.add t) ∧
      OrdTree rho (ts.foldl FPTree.add t) := by
  intro ts
  induction ts with
  | nil =>
    intro t hwf hri hord _
    exact ⟨hwf, hri, hord⟩
  | cons tr ts ih =>
    intro t hwf hri hord hts
    rw [List.foldl_cons]
    have hstep := ordWalk_add rho tr t 0 hwf hri hord hwf.1 (Or.inl rfl)
      (hts tr (List.mem_cons_self tr ts))
    exact ih (t.add tr) hstep.1 hstep.2.1 hstep.2.2
      (fun tr2 h2 => hts tr2 (List.mem_cons_of_mem tr h2))

theorem chain'_imp_mem {R S : Nat → Nat → Prop} :
    ∀ (l : List Nat), (∀ a b, a ∈ l → b ∈ l → R a b → S a b) →
    List.Chain' R l → List.Chain' S l := by
  intro l
  induction l with
  | nil =>
    intro _ _
    exact List.chain'_nil
  | cons a l ih =>
    intro hmem hch
    rw [List.chain'_cons'] at hch ⊢
    refine ⟨fun y hy => ?_, ih (fun x y hx hy => hmem x y (List.mem_cons_of_mem a hx)
      (List.mem_cons_of_mem a hy)) hch.2⟩
    exact hmem a y (List.mem_cons_self a l)
      (List.mem_cons_of_mem a (List.mem_of_mem_head? hy)) (hch.1 y hy)

theorem ordWalk_import (rho : Nat → Nat) (ci : Nat) :
    ∀ (path : List (Nat × Nat)) (t : FPTree) (point : Nat),
    WF t → RouteInv t → OrdTree rho t → ItemsBound rho ci t → point < t.size →
    (point = 0 ∨ ∃ jp, (t.node point).item = some jp ∧ ∀ x ∈ path, rho jp < rho x.1) →
    (path.map Prod.fst).Pairwise (fun a b => rho a < rho b) →
    (∀ q ∈ path, rho q.1 < rho ci ∨ q.1 = ci) →
    WF (path.foldl (importStep ci) (t, point)).1 ∧
      RouteInv (path.foldl (importStep ci) (t, point)).1 ∧
      OrdTree rho (path.foldl (importStep ci) (t, point)).1 ∧
      ItemsBound rho ci (path.foldl (importStep ci) (t, point)).1 := by
  intro path
  induction path with
  | nil =>
    intro t point hwf hri hord hbd _ _ _ _
    exact ⟨hwf, hri, hord, hbd⟩
  | cons e rest ih =>
    intro t point hwf hri hord hbd hpoint hpt hpw hqb
    rw [List.foldl_cons]
    have hpw2 : (rest.map Prod.fst).Pairwise (fun a b => rho a < rho b) := by
      rw [List.map_cons, List.pairwise_cons] at hpw
      exact hpw.2
    have hhead : ∀ x ∈ rest, rho e.1 < rho x.1 := by
      rw [List.map_cons, List.pairwise_cons] at hpw
      intro x hx
      exact hpw.1 x.1 (List.mem_map.mpr ⟨x, hx, rfl⟩)
    have hqb2 : ∀ q ∈ rest, rho q.1 < rho ci ∨ q.1 = ci :=
      fun q hq => hqb q (List.mem_cons_of_mem e hq)
    cases hs : t.searchChild point e.1 with
    | some np =>
      have hstep : importStep ci (t, point) e = (t, np) := by
        unfold importStep
        rw [hs]
      rw [hstep]
      obtain ⟨q, hqmem, hq2, hq1⟩ := searchChild_spec t point e.1 np hs
      obtain ⟨hqpos, hqlt, hqitem⟩ := hwf.2.2.2.2.1 point hpoint q hqmem
      refine ih t np hwf hri hord hbd (by omega) ?_ hpw2 hqb2
      right
      refine ⟨e.1, ?_, hhead⟩
      rw [← hq2, hqitem, hq1]
    | none =>
      have hstep : importStep ci (t, point) e
          = t.insertNewNode point e.1 (if e.1 == ci then e.2 else 0) := by
        unfold importStep
        rw [hs]
      rw [hstep]
      have hedge : ∀ jp, (t.node point).item = some jp → rho jp < rho e.1 := by
        intro jp hjp
        cases hpt with
        | inl h0 =>
          rw [h0, hwf.2.1] at hjp
          cases hjp
        | inr h1 =>
          obtain ⟨jp2, hjp2, hlt⟩ := h1
          rw [hjp2] at hjp
          cases hjp
          exact hlt e (List.mem_cons_self e rest)
      obtain ⟨hsize, hitem, _⟩ :=
        insertNewNode_basic t point e.1 (if e.1 == ci then e.2 else 0) hri
      have hsnd : (t.insertNewNode point e.1 (if e.1 == ci then e.2 else 0)).2 = t.size := rfl
      refine ih (t.insertNewNode point e.1 (if e.1 == ci then e.2 else 0)).1
        (t.insertNewNode point e.1 (if e.1 == ci then e.2 else 0)).2
        (WF_insertNewNode t point e.1 _ hpoint hs hwf hri)
        (RouteInv_insertNewNode t point e.1 _ hri)
        (OrdTree_insertNewNode rho t point e.1 _ hpoint hs hri hwf hedge hord)
        (ItemsBound_insertNewNode rho ci t point e.1 _ hri
          (hqb e (List.mem_cons_self e rest)) hbd)
        (by rw [hsnd, hsize]; omega) ?_ hpw2 hqb2
      right
      refine ⟨e.1, ?_, hhead⟩
      rw [hsnd, hitem t.size, if_pos rfl]

theorem ordImportPaths (rho : Nat → Nat) (ci : Nat) :
    ∀ (paths : List (List (Nat × Nat))) (t : FPTree),
    WF t → RouteInv t → OrdTree rho t → ItemsBound rho ci t →
    (∀ p ∈ paths, (p.map Prod.fst).Pairwise (fun a b => rho a < rho b)) →
    (∀ p ∈ paths, ∀ q ∈ p, rho q.1 < rho ci ∨ q.1 = ci) →
    WF (paths.foldl (importPath ci) t) ∧ RouteInv (paths.foldl (importPath ci) t) ∧
      OrdTree rho (paths.foldl (importPath ci) t) ∧
      ItemsBound rho ci (paths.foldl (importPath ci) t) := by
  intro paths
  induction paths with
  | nil =>
    intro t hwf hri hord hbd _ _
    exact ⟨hwf, hri, hord, hbd⟩
  | cons p ps ih =>
    intro t hwf hri hord hbd hpw hqb
    rw [List.foldl_cons]
    have hstep := ordWalk_import rho ci p t 0 hwf hri hord hbd hwf.1 (Or.inl rfl)
      (hpw p (List.mem_cons_self p ps)) (hqb p (List.mem_cons_self p ps))
    exact ih (importPath ci t p) hstep.1 hstep.2.1 hstep.2.2.1 hstep.2.2.2
      (fun p2 h2 => hpw p2 (List.mem_cons_of_mem p h2))
      (fun p2 h2 => hqb p2 (List.mem_cons_of_mem p h2))

theorem CountOnly_bumpCounts (t : FPTree) (ci : Nat) : CountOnly t (bumpCounts t ci) := by
  unfold bumpCounts
  have main : ∀ (L : List Nat) (t0 : FPTree), CountOnly t0
      (L.foldl (fun t2 m => bumpLeafPath t2 (t2.collectPath m)) t0) := by
    intro L
    induction L with
    | nil =>
      intro t0
      exact CountOnly_refl t0
    | cons m L ih =>
      intro t0
      exact CountOnly_trans (CountOnly_bumpLeafPath t0 (t0.collectPath m))
        (ih (bumpLeafPath t0 (t0.collectPath m)))
  exact main _ t

theorem condTreeOr_props (rho : Nat → Nat) (ci : Nat) (paths : List (List (Nat × Nat)))
    (c0 : Nat) (hfirst : paths.head?.bind (fun p => p.getLast?) = some (ci, c0))
    (hpw : ∀ p ∈ paths, (p.map Prod.fst).Pairwise (fun a b => rho a < rho b))
    (hbd : ∀ p ∈ paths, ∀ q ∈ p, rho q.1 < rho ci ∨ q.1 = ci) :
    WF (condTreeOr paths) ∧ RouteInv (condTreeOr paths) ∧ OrdTree rho (condTreeOr paths) ∧
      ItemsBound rho ci (condTreeOr paths) := by
  have hok : condTreeOr paths
      = bumpCounts (paths.foldl (importPath ci) FPTree.empty) ci := by
    unfold condTreeOr conditional_tree_from_paths
    rw [hfirst]
  obtain ⟨hwf, hri, hord, hbd2⟩ := ordImportPaths rho ci paths FPTree.empty WF_empty
    RouteInv_empty (OrdTree_empty rho) (ItemsBound_empty rho ci) hpw hbd
  have hco := CountOnly_bumpCounts (paths.foldl (importPath ci) FPTree.empty) ci
  rw [hok]
  refine ⟨?_, ?_, ?_, ?_⟩
  · exact WF_congr_weak _ _ hco.1 (fun m => (hco.2.2 m).1) (fun m => (hco.2.2 m).2.1)
      (fun m => (hco.2.2 m).2.2.1) (fun m => (hco.2.2 m).2.2.2.2) hwf
  · exact RouteInv_congr _ _ hco.1 hco.2.1 (fun m => (hco.2.2 m).1)
      (fun m => (hco.2.2 m).2.2.2.1) hri
  · exact OrdTree_congr rho _ _ hco.1 (fun m => (hco.2.2 m).1)
      (fun m => (hco.2.2 m).2.1) hord
  · exact ItemsBound_congr rho ci _ _ hco.1 (fun m => (hco.2.2 m).1) hbd2

theorem dataPath_facts (rho : Nat → Nat) (t : FPTree) (hwf : WF t) (hord : OrdTree rho t)
    (it m : Nat) (hm0 : 0 < m) (hmlt : m < t.size) (hmi : (t.node m).item = some it) :
    (((t.collectPath m).map
        (fun x => ((t.node x).item.getD 0, (t.node x).count.getD 0))).getLast?
      = some (it, (t.node m).count.getD 0)) ∧
    ((((t.collectPath m).map
        (fun x => ((t.node x).item.getD 0, (t.node x).count.getD 0))).map Prod.fst).Pairwise
      (fun a b => rho a < rho b)) ∧
    (∀ q ∈ (t.collectPath m).map
        (fun x => ((t.node x).item.getD 0, (t.node x).count.getD 0)),
      rho q.1 < rho it ∨ q.1 = it) := by
  obtain ⟨l, ha, hu, hb, hch, hdec⟩ := ancestorIds_spec t hwf m hm0 hmlt t.size hmlt
  have hcp : t.collectPath m = (m :: l).reverse := by
    unfold FPTree.collectPath
    rw [hu]
  have hchain1 : List.Chain' (fun a b => (t.node a).parent = some b) (m :: l) := by
    have h2 : (m :: (l ++ [0])) = (m :: l) ++ [0] := by simp
    rw [h2] at hch
    exact (List.chain'_append.mp hch).1
  have hmemall : ∀ x ∈ m :: l, 0 < x ∧ x < t.size := by
    intro x hx
    cases hx with
    | head => exact ⟨hm0, hmlt⟩
    | tail _ h2 => exact hb x h2
  have hchain2 : List.Chain' (fun a b =>
      rho ((t.node b).item.getD 0) < rho ((t.node a).item.getD 0)) (m :: l) := by
    refine chain'_imp_mem (m :: l) ?_ hchain1
    intro a b hamem hbmem hr
    obtain ⟨ha0, halt⟩ := hmemall a hamem
    obtain ⟨hb0, hblt⟩ := hmemall b hbmem
    obtain ⟨⟨ja, hja⟩, _, _⟩ := hwf.2.2.2.2.2.1 a ha0 halt
    obtain ⟨⟨jb, hjb⟩, _, _⟩ := hwf.2.2.2.2.2.1 b hb0 hblt
    have hlt := hord a ha0 halt b hr hb0 jb ja hjb hja
    rw [hja, hjb]
    simpa using hlt
  haveI : IsTrans Nat (fun a b : Nat =>
      rho ((t.node b).item.getD 0) < rho ((t.node a).item.getD 0)) :=
    ⟨fun a b c h1 h2 => Nat.lt_trans h2 h1⟩
  have hpw2 : (m :: l).Pairwise (fun a b =>
      rho ((t.node b).item.getD 0) < rho ((t.node a).item.getD 0)) :=
    List.chain'_iff_pairwise.mp hchain2
  have hgm : (t.node m).item.getD 0 = it := by
    rw [hmi]
    rfl
  refine ⟨?_, ?_, ?_⟩
  · rw [hcp, List.map_reverse, List.getLast?_reverse]
    simp [hmi]
  · rw [hcp, List.map_reverse, List.map_reverse, List.pairwise_reverse, List.map_map,
      List.pairwise_map]
    exact hpw2
  · intro q hq
    rw [hcp] at hq
    obtain ⟨x, hx, hfx⟩ := List.mem_map.mp hq
    rw [List.mem_reverse] at hx
    subst hfx
    cases hx with
    | head =>
      right
      exact hgm
    | tail _ h2 =>
      left
      have hlt2 := (List.pairwise_cons.mp hpw2).1 x h2
      show rho ((t.node x).item.getD 0) < rho it
      rw [← hgm]
      exact hlt2

theorem find?_of_mem_keysNodup (l : List (Nat × Nat × Nat))
    (hnd : (l.map (fun q2 => q2.1)).Nodup) (q : Nat × Nat × Nat) (hq : q ∈ l) :
    l.find? (fun q2 => q2.1 == q.1) = some q := by
  induction l with
  | nil => cases hq
  | cons a l ih =>
    cases hq with
    | head =>
      rw [List.find?_cons_of_pos l (by simp)]
    | tail _ h2 =>
      have hane : (a.1 == q.1) = false := by
        simp only [List.map_cons, List.nodup_cons] at hnd
        have : q.1 ∈ l.map (fun q2 => q2.1) := List.mem_map.mpr ⟨q, h2, rfl⟩
        simp
        intro hc
        rw [hc] at hnd
        exact hnd.1 this
      rw [List.find?_cons_of_neg l (by rw [hane]; exact Bool.false_ne_true)]
      exact ih ((List.nodup_cons.mp (by simpa using hnd)).2) h2

theorem prefixPaths_facts (rho : Nat → Nat) (t : FPTree) (it : Nat) (q : Nat × Nat × Nat)
    (hwf : WF t) (hri : RouteInv t) (hord : OrdTree rho t)
    (hroute : t.routes.find? (fun q2 => q2.1 == it) = some q) :
    (t.prefixPathsData it).head?.bind (fun p => p.getLast?)
      = some (it, (t.node q.2.1).count.getD 0) ∧
    (∀ p ∈ t.prefixPathsData it, (p.map Prod.fst).Pairwise (fun a b => rho a < rho b)) ∧
    (∀ p ∈ t.prefixPathsData it, ∀ qq ∈ p, rho qq.1 < rho it ∨ qq.1 = it) := by
  have hids : t.nodesList it = itemIds t it := nodesList_eq_itemIds t hri it
  have hpp : t.prefixPathsData it = (itemIds t it).map (fun nid =>
      (t.collectPath nid).map (fun m => ((t.node m).item.getD 0, (t.node m).count.getD 0))) := by
    unfold FPTree.prefixPathsData
    rw [hids]
  have hmem_props : ∀ m ∈ itemIds t it, 0 < m ∧ m < t.size ∧ (t.node m).item = some it := by
    intro m hm
    obtain ⟨hmlt, hmi⟩ := (mem_itemIds t it m).mp hm
    refine ⟨?_, hmlt, hmi⟩
    rcases Nat.eq_zero_or_pos m with h0 | h0
    · subst h0
      rw [hwf.2.1] at hmi
      cases hmi
    · exact h0
  obtain ⟨hhd, _⟩ := (hri.2 it).2.2 q hroute
  have hhdmem : q.2.1 ∈ itemIds t it := List.mem_of_mem_head? (by rw [hhd]; rfl)
  obtain ⟨hhd0, hhdlt, hhditem⟩ := hmem_props q.2.1 hhdmem
  refine ⟨?_, ?_, ?_⟩
  · rw [hpp, List.head?_map, hhd]
    show ((t.collectPath q.2.1).map
        (fun m => ((t.node m).item.getD 0, (t.node m).count.getD 0))).getLast? = _
    exact (dataPath_facts rho t hwf hord it q.2.1 hhd0 hhdlt hhditem).1
  · intro p hp
    rw [hpp] at hp
    obtain ⟨m, hm, hfm⟩ := List.mem_map.mp hp
    subst hfm
    obtain ⟨h0, hlt, hit⟩ := hmem_props m hm
    exact (dataPath_facts rho t hwf hord it m h0 hlt hit).2.1
  · intro p hp qq hqq
    rw [hpp] at hp
    obtain ⟨m, hm, hfm⟩ := List.mem_map.mp hp
    subst hfm
    obtain ⟨h0, hlt, hit⟩ := hmem_props m hm
    exact (dataPath_facts rho t hwf hord it m h0 hlt hit).2.2 qq hqq

theorem branches_foldr (s : List Nat) (rho : Nat → Nat)
    (Br : (Nat × Nat × Nat) → List (List Nat × Nat)) :
    ∀ rs : List (Nat × Nat × Nat),
    (rs.map (fun q2 => q2.1)).Nodup →
    (∀ q ∈ rs, ∀ e ∈ Br q, ∃ w, w ≠ [] ∧ w.getLast? = some q.1 ∧ e.1 = w ++ s ∧
      e.1.Pairwise (fun a b => rho a < rho b)) →
    (∀ q ∈ rs, ((Br q).map Prod.fst).Pairwise (fun a b => a ≠ b)) →
    (∀ e ∈ rs.foldr (fun q acc => Br q ++ acc) [], ∃ w it2, w ≠ [] ∧
      w.getLast? = some it2 ∧ it2 ∈ rs.map (fun q2 => q2.1) ∧ e.1 = w ++ s ∧
      e.1.Pairwise (fun a b => rho a < rho b)) ∧
    ((rs.foldr (fun q acc => Br q ++ acc) []).map Prod.fst).Pairwise (fun a b => a ≠ b) := by
  intro rs
  induction rs with
  | nil =>
    intro _ _ _
    exact ⟨fun e he => absurd he (List.not_mem_nil e), List.Pairwise.nil⟩
  | cons q rs ih =>
    intro hnd hbr hbrp
    have hnd2 : (rs.map (fun q2 => q2.1)).Nodup := by
      simp only [List.map_cons, List.nodup_cons] at hnd
      exact hnd.2
    have hq1out : q.1 ∉ rs.map (fun q2 => q2.1) := by
      simp only [List.map_cons, List.nodup_cons] at hnd
      exact hnd.1
    have hrest := ih hnd2 (fun q2 h2 => hbr q2 (List.mem_cons_of_mem q h2))
      (fun q2 h2 => hbrp q2 (List.mem_cons_of_mem q h2))
    rw [List.foldr_cons]
    constructor
    · intro e he
      rcases List.mem_append.mp he with h1 | h2
      · obtain ⟨w, hw1, hw2, hw3, hw4⟩ := hbr q (List.mem_cons_self q rs) e h1
        exact ⟨w, q.1, hw1, hw2, by rw [List.map_cons]; exact List.mem_cons_self q.1 _,
          hw3, hw4⟩
      · obtain ⟨w, it2, hw1, hw2, hw3, hw4, hw5⟩ := hrest.1 e h2
        exact ⟨w, it2, hw1, hw2, by rw [List.map_cons]; exact List.mem_cons_of_mem q.1 hw3,
          hw4, hw5⟩
    · rw [List.map_append, List.pairwise_append]
      refine ⟨hbrp q (List.mem_cons_self q rs), hrest.2, ?_⟩
      intro a ha b hb
      obtain ⟨e1, he1, hae⟩ := List.mem_map.mp ha
      obtain ⟨e2, he2, hbe⟩ := List.mem_map.mp hb
      obtain ⟨w1, hw11, hw12, hw13, _⟩ := hbr q (List.mem_cons_self q rs) e1 he1
      obtain ⟨w2, it2, hw21, hw22, hw23, hw24, _⟩ := hrest.1 e2 he2
      intro hc
      rw [← hae, ← hbe, hw13, hw24] at hc
      have hw : w1 = w2 := List.append_cancel_right hc
      rw [hw, hw22] at hw12
      cases hw12
      exact hq1out hw23

theorem miner_spec (rho : Nat → Nat) (ms : Int) :
    ∀ (fuel : Nat) (t : FPTree) (s : List Nat),
    WF t → RouteInv t → OrdTree rho t →
    (∀ n jn, 0 < n → n < t.size → (t.node n).item = some jn →
      (jn ∈ s ∨ ∀ b ∈ s, rho jn < rho b)) →
    s.Pairwise (fun a b => rho a < rho b) →
    (∀ e ∈ find_with_suffix ms fuel t s, ∃ w, w ≠ [] ∧ e.1 = w ++ s ∧
      e.1.Pairwise (fun a b => rho a < rho b)) ∧
    ((find_with_suffix ms fuel t s).map Prod.fst).Pairwise (fun a b => a ≠ b) := by
  intro fuel
  induction fuel with
  | zero =>
    intro t s _ _ _ _ _
    exact ⟨fun e he => absurd he (List.not_mem_nil e), List.Pairwise.nil⟩
  | succ fuel ih =>
    intro t s hwf hri hord hbound hspw
    have hbranches : ∀ q ∈ t.routes,
        (∀ e ∈ (if ms ≤ ((supportOf t q.1 : Nat) : Int) ∧ q.1 ∉ s then
            (q.1 :: s, supportOf t q.1) ::
              find_with_suffix ms fuel (condTreeOr (t.prefixPathsData q.1)) (q.1 :: s)
          else []), ∃ w, w ≠ [] ∧ w.getLast? = some q.1 ∧ e.1 = w ++ s ∧
          e.1.Pairwise (fun a b => rho a < rho b)) ∧
        (((if ms ≤ ((supportOf t q.1 : Nat) : Int) ∧ q.1 ∉ s then
            (q.1 :: s, supportOf t q.1) ::
              find_with_suffix ms fuel (condTreeOr (t.prefixPathsData q.1)) (q.1 :: s)
          else []).map Prod.fst).Pairwise (fun a b => a ≠ b)) := by
      intro q hq
      by_cases hg : ms ≤ ((supportOf t q.1 : Nat) : Int) ∧ q.1 ∉ s
      · have hfind := find?_of_mem_keysNodup t.routes hri.1 q hq
        obtain ⟨hfirst, hpwp, hbdp⟩ := prefixPaths_facts rho t q.1 q hwf hri hord hfind
        obtain ⟨hctwf, hctri, hctord, hctbd⟩ := condTreeOr_props rho q.1
          (t.prefixPathsData q.1) ((t.node q.2.1).count.getD 0) hfirst hpwp hbdp
        obtain ⟨hhd, _⟩ := (hri.2 q.1).2.2 q hfind
        have hhdmem : q.2.1 ∈ itemIds t q.1 :=
          List.mem_of_mem_head? (by rw [hhd]; rfl)
        obtain ⟨hhdlt, hhditem⟩ := (mem_itemIds t q.1 q.2.1).mp hhdmem
        have hhd0 : 0 < q.2.1 := by
          rcases Nat.eq_zero_or_pos q.2.1 with h0 | h0
          · rw [h0, hwf.2.1] at hhditem
            cases hhditem
          · exact h0
        have hlt : ∀ b ∈ s, rho q.1 < rho b := by
          rcases hbound q.2.1 q.1 hhd0 hhdlt hhditem with hin | hltall
          · exact absurd hin hg.2
          · exact hltall
        have hspw2 : (q.1 :: s).Pairwise (fun a b => rho a < rho b) :=
          List.pairwise_cons.mpr ⟨hlt, hspw⟩
        have hbound2 : ∀ n jn, 0 < n → n < (condTreeOr (t.prefixPathsData q.1)).size →
            ((condTreeOr (t.prefixPathsData q.1)).node n).item = some jn →
            (jn ∈ q.1 :: s ∨ ∀ b ∈ q.1 :: s, rho jn < rho b) := by
          intro n jn hn0 hnlt hni
          rcases hctbd n hn0 hnlt jn hni with hl | he2
          · right
            intro b hb
            cases hb with
            | head => exact hl
            | tail _ h2 => exact Nat.lt_trans hl (hlt b h2)
          · left
            rw [he2]
            exact List.mem_cons_self q.1 s
        have hrec := ih (condTreeOr (t.prefixPathsData q.1)) (q.1 :: s)
          hctwf hctri hctord hbound2 hspw2
        constructor
        · intro e he
          rw [if_pos hg] at he
          cases he with
          | head => exact ⟨[q.1], by simp, rfl, rfl, hspw2⟩
          | tail _ h2 =>
            obtain ⟨w', hw1, hw2, hw3⟩ := hrec.1 e h2
            refine ⟨w' ++ [q.1], by simp, List.getLast?_concat _, ?_, hw3⟩
            rw [hw2, List.append_assoc]
            rfl
        · rw [if_pos hg, List.map_cons, List.pairwise_cons]
          refine ⟨?_, hrec.2⟩
          intro b hb
          obtain ⟨e2, he2, hbe⟩ := List.mem_map.mp hb
          obtain ⟨w', hw1, hw2, _⟩ := hrec.1 e2 he2
          intro hc
          rw [← hbe, hw2] at hc
          have hlen : (q.1 :: s).length = w'.length + (q.1 :: s).length := by
            have h0 := congrArg List.length hc
            rw [List.length_append] at h0
            exact h0
          have hw0 : w'.length = 0 := by omega
          exact hw1 (List.length_eq_zero.mp hw0)
      · rw [if_neg hg]
        exact ⟨fun e he => absurd he (List.not_mem_nil e), List.Pairwise.nil⟩
    have hmain := branches_foldr s rho
      (fun q => if ms ≤ ((supportOf t q.1 : Nat) : Int) ∧ q.1 ∉ s then
          (q.1 :: s, supportOf t q.1) ::
            find_with_suffix ms fuel (condTreeOr (t.prefixPathsData q.1)) (q.1 :: s)
        else []) t.routes hri.1 (fun q hq => (hbranches q hq).1)
      (fun q hq => (hbranches q hq).2)
    refine ⟨fun e he => ?_, hmain.2⟩
    obtain ⟨w, it2, h1, _, _, h4, h5⟩ := hmain.1 e he
    exact ⟨w, h1, h4, h5⟩

theorem cols_pairwise_indexOf (cols : List Nat) (h : cols.Nodup) :
    cols.Pairwise (fun a b => List.indexOf a cols < List.indexOf b cols) := by
  rw [List.pairwise_iff_get]
  intro i j hij
  rw [List.get_indexOf h i, List.get_indexOf h j]
  exact hij

theorem map_fst_zip_sublist (l1 l2 : List Nat) :
    ((l1.zip l2).map (fun q => q.1)).Sublist l1 := by
  induction l1 generalizing l2 with
  | nil => simp
  | cons a l1 ih =>
    cases l2 with
    | nil => simp
    | cons b l2 =>
      rw [List.zip_cons_cons, List.map_cons]
      exact List.Sublist.cons₂ a (ih l2)

theorem extract_sublist_cols (cols r : List Nat) :
    ((((cols.zip r).filter (fun q => decide (0 < q.2))).map (fun q => q.1))).Sublist cols := by
  have h1 : ((((cols.zip r).filter (fun q => decide (0 < q.2))).map (fun q => q.1))).Sublist
      ((cols.zip r).map (fun q => q.1)) :=
    List.Sublist.map _ (List.filter_sublist _)
  exact h1.trans (map_fst_zip_sublist cols r)

theorem extract_pairwise (cols : List Nat) (rows : List (List Nat)) (h : cols.Nodup) :
    ∀ tr ∈ extractTransactions cols rows,
      tr.Pairwise (fun a b => List.indexOf a cols < List.indexOf b cols) := by
  intro tr htr
  obtain ⟨r, _, hr⟩ := List.mem_map.mp htr
  have hsub : tr.Sublist cols := by
    rw [← hr]
    exact extract_sublist_cols cols r
  exact List.Pairwise.sublist hsub (cols_pairwise_indexOf cols h)

theorem masterTree_props (rho : Nat → Nat) (z : List (List Nat))
    (h : ∀ tr ∈ z, tr.Pairwise (fun a b => rho a < rho b)) :
    WF (masterTree z) ∧ RouteInv (masterTree z) ∧ OrdTree rho (masterTree z) := by
  cases z with
  | nil =>
    have he : masterTree [] = FPTree.empty := rfl
    rw [he]
    exact ⟨WF_empty, RouteInv_empty, OrdTree_empty rho⟩
  | cons t0 rest =>
    rw [masterTree_cons]
    unfold buildTree
    exact ordBuild rho rest FPTree.empty WF_empty RouteInv_empty (OrdTree_empty rho)
      (fun tr htr => h tr (List.mem_cons_of_mem t0 htr))

theorem strictAsc_toFinset_ext (rho : Nat → Nat) :
    ∀ (u v : List Nat), u.Pairwise (fun a b => rho a < rho b) →
    v.Pairwise (fun a b => rho a < rho b) → u.toFinset = v.toFinset → u = v := by
  intro u
  induction u with
  | nil =>
    intro v _ _ hfe
    cases v with
    | nil => rfl
    | cons b v =>
      exfalso
      have hb : b ∈ ([] : List Nat).toFinset := by
        rw [hfe]
        exact List.mem_toFinset.mpr (List.mem_cons_self b v)
      simp at hb
  | cons a u ih =>
    intro v hu hv hfe
    cases v with
    | nil =>
      exfalso
      have ha : a ∈ ([] : List Nat).toFinset := by
        rw [← hfe]
        exact List.mem_toFinset.mpr (List.mem_cons_self a u)
      simp at ha
    | cons b v =>
      obtain ⟨hau, hu2⟩ := List.pairwise_cons.mp hu
      obtain ⟨hbv, hv2⟩ := List.pairwise_cons.mp hv
      have hanu : a ∉ u := fun hc => Nat.lt_irrefl (rho a) (hau a hc)
      have hbnv : b ∉ v := fun hc => Nat.lt_irrefl (rho b) (hbv b hc)
      have hab : a = b := by
        have hav : a ∈ b :: v := by
          rw [← List.mem_toFinset, ← hfe]
          exact List.mem_toFinset.mpr (List.mem_cons_self a u)
        have hbu : b ∈ a :: u := by
          rw [← List.mem_toFinset, hfe]
          exact List.mem_toFinset.mpr (List.mem_cons_self b v)
        cases List.mem_cons.mp hav with
        | inl h1 => exact h1
        | inr h1 =>
          cases List.mem_cons.mp hbu with
          | inl h2 => exact h2.symm
          | inr h2 =>
            exact absurd (Nat.lt_trans (hau b h2) (hbv a h1)) (Nat.lt_irrefl (rho a))
      subst hab
      have hfe2 : u.toFinset = v.toFinset := by
        ext x
        constructor
        · intro hx
          have hx2 : x ∈ (a :: v).toFinset := by
            rw [← hfe]
            exact List.mem_toFinset.mpr (List.mem_cons_of_mem a (List.mem_toFinset.mp hx))
          cases List.mem_cons.mp (List.mem_toFinset.mp hx2) with
          | inl h1 =>
            exfalso
            rw [h1] at hx
            exact hanu (List.mem_toFinset.mp hx)
          | inr h1 => exact List.mem_toFinset.mpr h1
        · intro hx
          have hx2 : x ∈ (a :: u).toFinset := by
            rw [hfe]
            exact List.mem_toFinset.mpr (List.mem_cons_of_mem a (List.mem_toFinset.mp hx))
          cases List.mem_cons.mp (List.mem_toFinset.mp hx2) with
          | inl h1 =>
            exfalso
            rw [h1] at hx
            exact hbnv (List.mem_toFinset.mp hx)
          | inr h1 => exact List.mem_toFinset.mpr h1
      rw [ih v hu2 hv2 hfe2]

/-- C6: in the lazy sequence produced by one call to `find_frequent_itemsets`,
no itemset (compared as a set of items) appears more than once. Proved for any
dataframe whose column labels are distinct (pandas guarantees this; duplicate
column labels would not give a well-formed dataframe). -/
theorem C6_no_duplicate_itemsets (cols : List Nat) (rows : List (List Nat)) (ms : Int)
    (h : cols.Nodup) :
    ((find_frequent_itemsets cols rows ms).map Prod.fst).Pairwise
      (fun a b => a.toFinset ≠ b.toFinset) := by
  have hprops := masterTree_props (fun a => List.indexOf a cols)
    (extractTransactions cols rows) (extract_pairwise cols rows h)
  have hm := miner_spec (fun a => List.indexOf a cols) ms
    (masterTree (extractTransactions cols rows)).size
    (masterTree (extractTransactions cols rows)) []
    hprops.1 hprops.2.1 hprops.2.2
    (fun n jn _ _ _ => Or.inr (fun b hb => absurd hb (List.not_mem_nil b)))
    List.Pairwise.nil
  have hout : find_frequent_itemsets cols rows ms
      = find_with_suffix ms (masterTree (extractTransactions cols rows)).size
          (masterTree (extractTransactions cols rows)) [] := rfl
  rw [hout]
  refine List.Pairwise.imp_of_mem ?_ hm.2
  intro x y hx hy hxy hc
  apply hxy
  obtain ⟨ex, hex, hexx⟩ := List.mem_map.mp hx
  obtain ⟨ey, hey, heyy⟩ := List.mem_map.mp hy
  obtain ⟨wx, _, _, hxp⟩ := hm.1 ex hex
  obtain ⟨wy, _, _, hyp⟩ := hm.1 ey hey
  rw [← hexx, ← heyy] at hc ⊢
  exact strictAsc_toFinset_ext (fun a => List.indexOf a cols) ex.1 ey.1 hxp hyp hc

theorem C6_no_duplicate_itemsets_witness :
    ([0, 1, 2] : List Nat).Nodup ∧
    ((find_frequent_itemsets [0, 1, 2] [[1, 1, 0], [1, 1, 1], [1, 0, 0], [0, 1, 1], [0, 1, 0]]
      2).map Prod.fst).Pairwise (fun a b => a.toFinset ≠ b.toFinset) :=
  ⟨by decide, C6_no_duplicate_itemsets [0, 1, 2]
    [[1, 1, 0], [1, 1, 1], [1, 0, 0], [0, 1, 1], [0, 1, 0]] 2 (by decide)⟩
